import Mathlib

/-!
Verification development for the Grant_finder ingestion pipeline.

Shallow embedding of the Go sources:
  internal/ingest/status_engine.go   (status engine, next-deadline picker)
  internal/ingest/pipeline.go        (SaveOpportunity upsert semantics)
  internal/ingest/pdf_deadline_extractor.go (date normalization by source)
  internal/ingest/parser_llm.go      (SSRF ip checks)
  internal/api/server.go             (isPrivateOrSpecialIP)
  internal/db/store.go               (listing WHERE construction)
  strategy html / normalizer         (CanonicalizeURL, FromRaw UpdateStatus)

Machine integers do not occur on the verified paths; Go `time.Time` is
modelled as an integer count of seconds since the Unix epoch (all code under
verification only compares instants and rebuilds them from civil fields, so
second resolution is faithful; sub-second components never influence a
comparison in the claims).  Strings are Lean `String`s, with Go
`strings.ToLower` modelled on the ASCII range (all keyword tables in the
source are lower-case ASCII except for accented lower-case letters, which
`ToLower` leaves unchanged in both systems).
-/

namespace GrantFinder

/-! ## String helpers (models of Go `strings` functions) -/

/-- Model of `strings.HasPrefix` on character lists. -/
def charsStartWith : List Char → List Char → Bool
  | _, [] => true
  | [], _ :: _ => false
  | a :: as, b :: bs => a == b && charsStartWith as bs

/-- Model of `strings.Contains` on character lists. -/
def charsContains : List Char → List Char → Bool
  | [], needle => needle.isEmpty
  | c :: rest, needle => charsStartWith (c :: rest) needle || charsContains rest needle

/-- Model of Go `strings.Contains`. -/
def strContains (s pat : String) : Bool :=
  charsContains s.toList pat.toList

/-- Model of Go `strings.HasPrefix`. -/
def strStartsWith (s pat : String) : Bool :=
  charsStartWith s.toList pat.toList

/-- Model of Go `strings.ToLower` (ASCII range; see header note). -/
def lowerStr (s : String) : String :=
  ⟨s.toList.map Char.toLower⟩

/-- Characters Go `unicode.IsSpace` classifies as space, restricted to the
    ASCII range used by the sources. -/
def isSpaceChar (c : Char) : Bool :=
  c == ' ' || c == '\t' || c == '\n' || c == '\r'

/-- Model of Go `strings.TrimSpace`. -/
def strTrim (s : String) : String :=
  ⟨((s.toList.dropWhile isSpaceChar).reverse.dropWhile isSpaceChar).reverse⟩

/-- Splits a character list into maximal runs of non-space characters
    (model of Go `strings.Fields`). -/
def fieldsAux : List Char → List Char → List (List Char)
  | [], acc => if acc.isEmpty then [] else [acc.reverse]
  | c :: rest, acc =>
    if isSpaceChar c then
      if acc.isEmpty then fieldsAux rest [] else acc.reverse :: fieldsAux rest []
    else
      fieldsAux rest (c :: acc)

/-- Model of `normalizeSpace` / `cleanText` in internal/ingest/helpers.go:
    `strings.Join(strings.Fields(s), " ")`. -/
def cleanText (s : String) : String :=
  String.intercalate " " ((fieldsAux s.toList []).map (fun w => String.mk w))

/-- Tag-stripping core of `HTMLToText` (goquery `doc.Text()` over the
    tag-free text nodes; entities are out of the modelled input space). -/
def stripTagsAux : List Char → Bool → List Char
  | [], _ => []
  | c :: rest, true => if c == '>' then stripTagsAux rest false else stripTagsAux rest true
  | c :: rest, false => if c == '<' then stripTagsAux rest true else c :: stripTagsAux rest false

/-- Model of `HTMLToText` in the normalizer (strip tags, then `cleanText`). -/
def HTMLToText (html : String) : String :=
  cleanText ⟨stripTagsAux html.toList false⟩

/-! ## Time model

`time.Time` is an absolute instant: an integer number of seconds since
1970-01-01T00:00:00Z.  `daysFromCivil` is the standard civil-date to
day-number conversion (proleptic Gregorian), matching Go `time.Date(...,time.UTC)`. -/

/-- Days from 1970-01-01 to the civil date y-m-d (proleptic Gregorian). -/
def daysFromCivil (y m d : ℤ) : ℤ :=
  let y' : ℤ := if m ≤ 2 then y - 1 else y
  let era : ℤ := Int.fdiv y' 400
  let yoe : ℤ := y' - era * 400
  let mp : ℤ := Int.fmod (m + 9) 12
  let doy : ℤ := Int.fdiv (153 * mp + 2) 5 + d - 1
  let doe : ℤ := yoe * 365 + Int.fdiv yoe 4 - Int.fdiv yoe 100 + doy
  era * 146097 + doe - 719468

/-- Seconds since the Unix epoch of the UTC civil instant y-m-d h:mi:s,
    the model of Go `time.Date(y,m,d,h,mi,s,_,time.UTC).Unix()`. -/
def epochOf (y m d h mi s : ℤ) : ℤ :=
  daysFromCivil y m d * 86400 + h * 3600 + mi * 60 + s

/-! ## Date-string parsing: `parseDeadlineCandidate` (status_engine.go)

Go tries, in order, `time.RFC3339`, `"2006-01-02"`, `"2006-01-02 15:04:05"`
and `"2006-01-02T15:04:05"`; each must consume the whole (trimmed) input and
validates civil ranges.  The formats are mutually exclusive, so a single
combined parser is an exact model. -/

/-- Decimal value of an ASCII digit. -/
def digitVal? (c : Char) : Option ℤ :=
  if c.isDigit then some ((c.toNat : ℤ) - 48) else none

def isLeapYear (y : ℤ) : Bool :=
  (Int.fmod y 4 == 0 && Int.fmod y 100 != 0) || Int.fmod y 400 == 0

def daysInMonth (y m : ℤ) : ℤ :=
  if m == 2 then (if isLeapYear y then 29 else 28)
  else if m == 4 || m == 6 || m == 9 || m == 11 then 30
  else 31

/-- Parses a leading `YYYY-MM-DD` with Go's range validation, returning the
    civil fields and the unconsumed tail. -/
def parseCivilDate? : List Char → Option (ℤ × ℤ × ℤ × List Char)
  | y1 :: y2 :: y3 :: y4 :: '-' :: m1 :: m2 :: '-' :: d1 :: d2 :: rest => do
    let a ← digitVal? y1
    let b ← digitVal? y2
    let c ← digitVal? y3
    let d ← digitVal? y4
    let m1v ← digitVal? m1
    let m2v ← digitVal? m2
    let d1v ← digitVal? d1
    let d2v ← digitVal? d2
    let y := a * 1000 + b * 100 + c * 10 + d
    let m := m1v * 10 + m2v
    let dd := d1v * 10 + d2v
    if 1 ≤ m ∧ m ≤ 12 ∧ 1 ≤ dd ∧ dd ≤ daysInMonth y m then
      some (y, m, dd, rest)
    else
      none
  | _ => none

/-- Parses a leading `HH:MM:SS` with Go's range validation. -/
def parseClock? : List Char → Option (ℤ × ℤ × ℤ × List Char)
  | h1 :: h2 :: ':' :: m1 :: m2 :: ':' :: s1 :: s2 :: rest => do
    let a ← digitVal? h1
    let b ← digitVal? h2
    let c ← digitVal? m1
    let d ← digitVal? m2
    let e ← digitVal? s1
    let f ← digitVal? s2
    let h := a * 10 + b
    let mi := c * 10 + d
    let s := e * 10 + f
    if h ≤ 23 ∧ mi ≤ 59 ∧ s ≤ 59 then some (h, mi, s, rest) else none
  | _ => none

/-- Skips an optional fractional-seconds suffix `.d+` (Go's `time.Parse`
    accepts it after the seconds; the model truncates to seconds). -/
def skipFraction : List Char → List Char
  | '.' :: c :: rest =>
    if c.isDigit then (c :: rest).dropWhile Char.isDigit else '.' :: c :: rest
  | cs => cs

/-- Parses the RFC3339 zone suffix, returning the offset in seconds. -/
def parseZoneOffset? : List Char → Option ℤ
  | ['Z'] => some 0
  | [sgn, o1, o2, ':', o3, o4] => do
    let a ← digitVal? o1
    let b ← digitVal? o2
    let c ← digitVal? o3
    let d ← digitVal? o4
    let hh := a * 10 + b
    let mm := c * 10 + d
    if hh ≤ 23 ∧ mm ≤ 59 then
      if sgn == '+' then some (hh * 3600 + mm * 60)
      else if sgn == '-' then some (-(hh * 3600 + mm * 60))
      else none
    else none
  | _ => none

/-- Model of `parseDeadlineCandidate` (status_engine.go): the union of the
    four accepted layouts, as an absolute instant. -/
def parseDeadlineCandidate (raw : String) : Option ℤ :=
  let cs := (strTrim raw).toList
  match parseCivilDate? cs with
  | none => none
  | some (y, m, d, rest) =>
    match rest with
    | [] => some (epochOf y m d 0 0 0)
    | sep :: rest2 =>
      if sep == 'T' || sep == ' ' then
        match parseClock? rest2 with
        | none => none
        | some (h, mi, s, rest3) =>
          match skipFraction rest3 with
          | [] => some (epochOf y m d h mi s)
          | zone =>
            if sep == 'T' then
              (parseZoneOffset? zone).map (fun off => epochOf y m d h mi s - off)
            else none
      else none

/-! ## Data model

`Opportunity` carries the fields of internal/ingest `Opportunity` that reach
the verified code paths.  Pointer-typed times (`*time.Time`) become
`Option ℤ`; `Deadlines []string` stays a list of raw strings;
`SourceEvidenceJSON map[string]interface{}` is modelled as an association
list restricted to boolean values (the engine only reads the boolean key
`rolling_evidence`). -/

structure DeadlineEvidence where
  source : String
  url : String
  snippet : String
  parsedDateISO : String
  label : String
  confidence : ℤ
  deriving DecidableEq, Repr

structure Opportunity where
  title : String := ""
  summary : String := ""
  description : String := ""
  externalURL : String := ""
  sourceDomain : String := ""
  sourceID : String := ""
  canonicalURL : String := ""
  rawURL : String := ""
  contentType : String := ""
  sourceStatusRaw : String := ""
  oppStatus : String := ""
  normalizedStatus : String := ""
  statusReason : String := ""
  statusConfidence : ℤ := 0
  isRolling : Bool := false
  rollingEvidence : Bool := false
  isResultsPage : Bool := false
  openDate : Option ℤ := none
  openAt : Option ℤ := none
  closeAt : Option ℤ := none
  expirationAt : Option ℤ := none
  deadlineAt : Option ℤ := none
  nextDeadlineAt : Option ℤ := none
  deadlines : List String := []
  deadlineEvidence : List DeadlineEvidence := []
  sourceEvidenceJSON : List (String × Bool) := []
  amountMin : ℤ := 0
  amountMax : ℤ := 0
  currency : String := ""
  categories : List String := []
  eligibility : List String := []
  deriving DecidableEq, Repr

structure StatusDecision where
  normalizedStatus : String
  statusReason : String
  statusConfidence : ℤ
  nextDeadlineAt : Option ℤ
  isResultsPage : Bool := false
  deriving DecidableEq, Repr

/-! ## Status engine (internal/ingest/status_engine.go) -/

/-- `resultsKeywords` from status_engine.go. -/
def resultsKeywords : List String :=
  ["resultados finales", "ganadores", "final results", "winners announced",
   "awards announced", "awarded to", "awardees selected", "convocatoria cerrada",
   "cierre de postulaciones", "results published", "results available", "ranking final"]

/-- Looks a boolean key up in the evidence bag
    (`opp.SourceEvidenceJSON["rolling_evidence"].(bool)`). -/
def evidenceBool (bag : List (String × Bool)) (key : String) : Option Bool :=
  (bag.find? (fun p => p.1 == key)).map (·.2)

/-- Model of `detectRollingEvidence` (status_engine.go). -/
def detectRollingEvidence (opp : Opportunity) : Bool :=
  if opp.rollingEvidence then true
  else
    let joined := lowerStr (String.intercalate " \n "
      [opp.sourceStatusRaw, opp.oppStatus, opp.title, opp.summary, HTMLToText opp.description])
    let rollingHints : List String :=
      ["rolling", "rolling basis", "open continuously", "ongoing call",
       "open until filled", "no deadline", "ventanilla abierta",
       "convocatoria permanente", "sin fecha límite", "abierta permanentemente"]
    if rollingHints.any (fun hint => strContains joined hint) then true
    else evidenceBool opp.sourceEvidenceJSON "rolling_evidence" == some true

/-- Model of `detectResultsPage` (status_engine.go).  `ExternalURL` is not an
    input of the keyword match, mirroring the source comment. -/
def detectResultsPage (opp : Opportunity) : Bool :=
  let text := lowerStr (String.intercalate " \n "
    [opp.title, opp.summary, HTMLToText opp.description, opp.sourceStatusRaw])
  let srcLower := lowerStr opp.oppStatus
  if srcLower == "posted" || srcLower == "active" || srcLower == "open" || srcLower == "forecasted" then
    false
  else if resultsKeywords.any (fun keyword => strContains text keyword) then true
  else
    strContains text "proinnovate" &&
      (strContains text "resultados finales" || strContains text "ganadores")

/-- Model of `mapSourceStatusRaw` (status_engine.go). -/
def mapSourceStatusRaw (raw : String) : String :=
  let raw := lowerStr (strTrim raw)
  if raw == "" then ""
  else
    let closedHints : List String :=
      ["closed", "cerrad", "finaliz", "cancel", "funded", "expired", "no longer accepting"]
    let archivedHints : List String :=
      ["archived", "historic", "results", "winners", "awardees", "ganadores", "resultados"]
    let upcomingHints : List String :=
      ["forthcoming", "upcoming", "coming soon", "próxim", "anticipated"]
    let openHints : List String :=
      ["open", "posted", "active", "abierta", "vigente", "rolling"]
    if closedHints.any (fun h => strContains raw h) then "closed"
    else if archivedHints.any (fun h => strContains raw h) then "archived"
    else if upcomingHints.any (fun h => strContains raw h) then "upcoming"
    else if openHints.any (fun h => strContains raw h) then "open"
    else ""

/-- Start-like label test inside `pickNextDeadline`. -/
def labelIsStartLike (label : String) : Bool :=
  strContains label "inicio" || strContains label "apertura" ||
    strContains label "start" || strContains label "opening"

/-- Close-like label test inside `pickNextDeadline` (note: no `fecha máxima`). -/
def labelIsCloseLike (label : String) : Bool :=
  strContains label "cierre" || strContains label "deadline" ||
    strContains label "closes" || strContains label "submission" ||
    (strContains label "postul" && !labelIsStartLike label)

/-- Running minimum of a list, the model of the `best`/`labeledCloseBest`
    update loops in `pickNextDeadline`. -/
def foldMin? (l : List ℤ) : Option ℤ :=
  l.foldl (fun acc t =>
    match acc with
    | none => some t
    | some b => if t < b then some t else some b) none

/-- The strictly-future evidence instants whose lowercased label+snippet is
    close-like and not start-like (the `labeledCloseBest` candidates). -/
def labeledCloseTimes (opp : Opportunity) (now : ℤ) : List ℤ :=
  opp.deadlineEvidence.filterMap (fun ev =>
    match parseDeadlineCandidate ev.parsedDateISO with
    | none => none
    | some t =>
      let label := lowerStr (ev.label ++ " " ++ ev.snippet)
      if labelIsCloseLike label && !labelIsStartLike label && decide (now < t) then
        some t
      else none)

/-- The full candidate pool of `pickNextDeadline`: parses of `deadlines`,
    parses of evidence ISO stamps, the stored `next_deadline_at` and
    `deadline_at`. -/
def allCandidates (opp : Opportunity) : List ℤ :=
  opp.deadlines.filterMap parseDeadlineCandidate ++
    opp.deadlineEvidence.filterMap (fun ev => parseDeadlineCandidate ev.parsedDateISO) ++
    opp.nextDeadlineAt.toList ++ opp.deadlineAt.toList

/-- Model of `pickNextDeadline` (status_engine.go).  The Go running-minimum
    loops are expressed as `foldMin?` over the corresponding candidate lists;
    the final fallback returns the stored `next_deadline_at` unconditionally. -/
def pickNextDeadline (opp : Opportunity) (now : ℤ) : Option ℤ :=
  match foldMin? (labeledCloseTimes opp now) with
  | some t => some t
  | none =>
    match foldMin? ((allCandidates opp).filter (fun c => decide (now < c))) with
    | some b => some b
    | none => opp.nextDeadlineAt

/-- `opt.After(now)` for a nullable time: false when nil. -/
def optAfter (o : Option ℤ) (now : ℤ) : Bool :=
  match o with
  | some t => decide (now < t)
  | none => false

/-- Model of `hasAnyDeadlineEvidence` (status_engine.go). -/
def hasAnyDeadlineEvidence (opp : Opportunity) : Bool :=
  if opp.deadlineEvidence.length > 0 || opp.deadlines.length > 0 then true
  else opp.deadlineAt.isSome || opp.nextDeadlineAt.isSome

/-- Model of `hasFutureDeadlineEvidence` (status_engine.go). -/
def hasFutureDeadlineEvidence (opp : Opportunity) (now : ℤ) : Bool :=
  if optAfter (pickNextDeadline opp now) now then true
  else optAfter opp.closeAt now

/-- Model of `ComputeStatusDecision` (status_engine.go), an exact transcription
    of the rule chain with its constants. -/
def ComputeStatusDecision (opp : Opportunity) (now : ℤ) : StatusDecision :=
  let nextDeadline := pickNextDeadline opp now
  let isResults := detectResultsPage opp
  let hasRollingEvidence := detectRollingEvidence opp
  let effectiveRolling := hasRollingEvidence
  if isResults || opp.isResultsPage then
    { normalizedStatus := "closed", statusReason := "results_page",
      statusConfidence := 99, nextDeadlineAt := nextDeadline, isResultsPage := true }
  else
    let mappedSource :=
      let m := mapSourceStatusRaw opp.sourceStatusRaw
      if m == "" then mapSourceStatusRaw opp.oppStatus else m
    if mappedSource == "archived" then
      { normalizedStatus := "archived", statusReason := "source_archived",
        statusConfidence := 95, nextDeadlineAt := nextDeadline }
    else if mappedSource == "closed" then
      if effectiveRolling || optAfter nextDeadline now || optAfter opp.closeAt now then
        { normalizedStatus := "needs_review", statusReason := "inconsistent_dates",
          statusConfidence := 35, nextDeadlineAt := nextDeadline }
      else
        { normalizedStatus := "closed", statusReason := "source_closed",
          statusConfidence := 92, nextDeadlineAt := nextDeadline }
    else if optAfter opp.openAt now then
      { normalizedStatus := "upcoming", statusReason := "open_date_in_future",
        statusConfidence := 90, nextDeadlineAt := nextDeadline }
    else if opp.isRolling && !hasRollingEvidence then
      { normalizedStatus := "needs_review", statusReason := "rolling_without_evidence",
        statusConfidence := 20, nextDeadlineAt := nextDeadline }
    else if effectiveRolling then
      { normalizedStatus := "open", statusReason := "rolling_open",
        statusConfidence := 96, nextDeadlineAt := nextDeadline }
    else if optAfter nextDeadline now then
      { normalizedStatus := "open", statusReason := "future_deadline",
        statusConfidence := 93, nextDeadlineAt := nextDeadline }
    else if optAfter opp.closeAt now then
      { normalizedStatus := "open", statusReason := "future_close_date",
        statusConfidence := 90, nextDeadlineAt := nextDeadline }
    else if opp.closeAt.isSome && !optAfter opp.closeAt now then
      { normalizedStatus := "closed", statusReason := "close_date_passed",
        statusConfidence := 94, nextDeadlineAt := nextDeadline }
    else if opp.expirationAt.isSome && !optAfter opp.expirationAt now then
      { normalizedStatus := "closed", statusReason := "expiration_passed",
        statusConfidence := 90, nextDeadlineAt := nextDeadline }
    else if opp.deadlineAt.isSome && !optAfter opp.deadlineAt now then
      { normalizedStatus := "closed", statusReason := "deadline_passed",
        statusConfidence := 95, nextDeadlineAt := nextDeadline }
    else if hasAnyDeadlineEvidence opp && !hasFutureDeadlineEvidence opp now then
      { normalizedStatus := "closed", statusReason := "deadline_passed",
        statusConfidence := 95, nextDeadlineAt := nextDeadline }
    else if mappedSource == "upcoming" then
      { normalizedStatus := "upcoming", statusReason := "source_upcoming",
        statusConfidence := 75, nextDeadlineAt := nextDeadline }
    else if mappedSource == "open" then
      { normalizedStatus := "needs_review", statusReason := "source_open_without_time_evidence",
        statusConfidence := 30, nextDeadlineAt := nextDeadline }
    else if nextDeadline.isNone && !effectiveRolling &&
        (opp.closeAt.isNone || !optAfter opp.closeAt now) then
      { normalizedStatus := "needs_review", statusReason := "missing_deadline",
        statusConfidence := 25, nextDeadlineAt := none }
    else
      { normalizedStatus := "needs_review", statusReason := "inconsistent_dates",
        statusConfidence := 40, nextDeadlineAt := nextDeadline }

/-! ## Normalizer final status pass (`UpdateStatus`, normalizer source file)

`UpdateStatus` stamps the engine outputs and then adjusts `OppStatus`:
a `closed`/`archived` decision overwrites it, otherwise an empty or
`unknown` value becomes `posted`.  `time.Now().UTC()` is the explicit
`now` argument of the model. -/

def UpdateStatus (now : ℤ) (opp : Opportunity) : Opportunity :=
  let decision := ComputeStatusDecision opp now
  let o := { opp with
    normalizedStatus := decision.normalizedStatus,
    statusReason := decision.statusReason,
    statusConfidence := decision.statusConfidence,
    nextDeadlineAt := decision.nextDeadlineAt,
    isResultsPage := decision.isResultsPage }
  if decision.normalizedStatus == "closed" || decision.normalizedStatus == "archived" then
    { o with oppStatus := decision.normalizedStatus }
  else if o.oppStatus == "" || o.oppStatus == "unknown" then
    { o with oppStatus := "posted" }
  else o

/-! ## Pipeline upsert (`SaveOpportunity`, internal/ingest/pipeline.go)

The stored table row, restricted to the columns whose update rules the
claims are about, and the `ON CONFLICT (source_domain, source_id) DO UPDATE`
clause as a pure state transformer.  `nilIfEmpty` makes an empty Go string a
SQL NULL; in the model an empty string plays the NULL role exactly where the
SQL pairs the two (`COALESCE(EXCLUDED.c, …)` on a `nilIfEmpty` argument and
`NULLIF(c,'')` give the same result under this identification). -/

structure Row where
  title : String := ""
  summary : String := ""
  descriptionHtml : String := ""
  oppStatus : String := ""
  sourceStatusRaw : String := ""
  normalizedStatus : String := ""
  statusReason : String := ""
  statusConfidence : ℤ := 0
  isRolling : Bool := false
  rollingEvidence : Bool := false
  isResultsPage : Bool := false
  deadlineAt : Option ℤ := none
  nextDeadlineAt : Option ℤ := none
  closeAt : Option ℤ := none
  expirationAt : Option ℤ := none
  openAt : Option ℤ := none
  amountMin : ℤ := 0
  amountMax : ℤ := 0
  currency : String := ""
  categories : List String := []
  eligibility : List String := []
  sourceDomain : String := ""
  region : String := ""
  funderType : String := ""
  country : String := ""
  agencyCode : String := ""
  agencyName : String := ""
  deriving DecidableEq, Repr

/-- The `INSERT` arm of the upsert: the incoming record becomes the row. -/
def insertRow (o : Opportunity) : Row :=
  { title := o.title, summary := o.summary, descriptionHtml := o.description,
    oppStatus := o.oppStatus, sourceStatusRaw := o.sourceStatusRaw,
    normalizedStatus := o.normalizedStatus, statusReason := o.statusReason,
    statusConfidence := o.statusConfidence,
    isRolling := o.isRolling, rollingEvidence := o.rollingEvidence,
    isResultsPage := o.isResultsPage,
    deadlineAt := o.deadlineAt, nextDeadlineAt := o.nextDeadlineAt,
    closeAt := o.closeAt, expirationAt := o.expirationAt, openAt := o.openAt,
    amountMin := o.amountMin, amountMax := o.amountMax, currency := o.currency,
    categories := o.categories, eligibility := o.eligibility,
    sourceDomain := o.sourceDomain }

/-- The `DO UPDATE SET` arm of the upsert in `SaveOpportunity`, column by
    column (pipeline.go).  `r` is the stored row, `o` the incoming
    (`EXCLUDED`) record. -/
def applyUpsert (r : Row) (o : Opportunity) : Row :=
  { r with
    title := o.title,
    summary := o.summary,
    descriptionHtml := if o.description == "" then r.descriptionHtml else o.description,
    deadlineAt := match o.deadlineAt with
      | some t => some t
      | none => r.deadlineAt,
    amountMin := if o.amountMin == 0 then r.amountMin else o.amountMin,
    amountMax := if o.amountMax == 0 then r.amountMax else o.amountMax,
    currency := if o.currency == "" then r.currency else o.currency,
    oppStatus :=
      if (r.oppStatus == "closed" || r.oppStatus == "archived" || r.oppStatus == "funded") &&
          (o.oppStatus == "posted" || o.oppStatus == "") then
        r.oppStatus
      else if o.oppStatus == "" then r.oppStatus else o.oppStatus,
    isRolling := r.isRolling || o.isRolling,
    sourceStatusRaw := if o.sourceStatusRaw == "" then r.sourceStatusRaw else o.sourceStatusRaw,
    normalizedStatus := o.normalizedStatus,
    statusReason := o.statusReason,
    nextDeadlineAt := o.nextDeadlineAt,
    expirationAt := match o.expirationAt with
      | some t => some t
      | none => r.expirationAt,
    closeAt := match o.closeAt with
      | some t => some t
      | none => r.closeAt,
    openAt := match o.openAt with
      | some t => some t
      | none => r.openAt,
    isResultsPage := o.isResultsPage,
    statusConfidence := max o.statusConfidence r.statusConfidence,
    rollingEvidence := o.rollingEvidence,
    categories := if o.categories == [] then r.categories else o.categories,
    eligibility := if o.eligibility == [] then r.eligibility else o.eligibility }

/-- A sequence of upserts of the same `(source_domain, source_id)` key: the
    first write inserts, every later one runs the update clause. -/
def runUpserts (w : Opportunity) (ws : List Opportunity) : Row :=
  ws.foldl applyUpsert (insertRow w)

/-- `isAPIFirstSource` (pipeline.go). -/
def isAPIFirstSource (domain : String) : Bool :=
  let d := lowerStr (strTrim domain)
  ["grants.gov", "api.grants.gov", "ec.europa.eu", "europa.eu", "nsf.gov", "nih.gov"].any
    (fun candidate => strContains d candidate)

/-- pipeline.go line 366: `opp.RollingEvidence = detectRollingEvidence(opp)`. -/
def recomputeRollingEvidence (opp : Opportunity) : Opportunity :=
  { opp with rollingEvidence := detectRollingEvidence opp }

/-- pipeline.go lines 368-373: stamp the engine decision. -/
def stampDecision (now : ℤ) (o : Opportunity) : Opportunity :=
  { o with
    normalizedStatus := (ComputeStatusDecision o now).normalizedStatus,
    statusReason := (ComputeStatusDecision o now).statusReason,
    statusConfidence := (ComputeStatusDecision o now).statusConfidence,
    nextDeadlineAt := (ComputeStatusDecision o now).nextDeadlineAt,
    isResultsPage := (ComputeStatusDecision o now).isResultsPage }

/-- pipeline.go lines 375-377: default `source_status_raw` to `opp_status`. -/
def defaultSourceStatusRaw (o : Opportunity) : Opportunity :=
  { o with sourceStatusRaw := if o.sourceStatusRaw == "" then o.oppStatus else o.sourceStatusRaw }

/-- pipeline.go lines 378-380: default `open_at` from the legacy `open_date`. -/
def defaultOpenAt (o : Opportunity) : Opportunity :=
  { o with openAt := match o.openAt with
      | some t => some t
      | none => o.openDate }

/-- pipeline.go lines 384-389: API-first sources with structured dates get a
    0.95 confidence floor. -/
def apiFirstFloor (o : Opportunity) : Opportunity :=
  if isAPIFirstSource o.sourceDomain &&
      (o.openAt.isSome || o.closeAt.isSome || o.expirationAt.isSome ||
        decide (o.deadlines.length > 0)) then
    { o with statusConfidence := if o.statusConfidence < 95 then 95 else o.statusConfidence }
  else o

/-- pipeline.go lines 390-392: force `is_rolling` to false when
    `rolling_evidence` is false. -/
def forceRollingFalse (o : Opportunity) : Opportunity :=
  if !o.rollingEvidence then { o with isRolling := false } else o

/-- The pure tail of `SaveOpportunity` (pipeline.go) between evidence
    enrichment and the SQL statement, stage by stage in source order. -/
def prepareForWrite (now : ℤ) (opp : Opportunity) : Opportunity :=
  forceRollingFalse (apiFirstFloor (defaultOpenAt (defaultSourceStatusRaw
    (stampDecision now (recomputeRollingEvidence opp)))))

/-- A sequence of `SaveOpportunity` calls for one key: each write is
    prepared by the pure tail and then upserted. -/
def savedRun (now : ℤ) (w : Opportunity) (ws : List Opportunity) : Row :=
  runUpserts (prepareForWrite now w) (ws.map (prepareForWrite now))

/-! ## SSRF address checks (internal/ingest/parser_llm.go, internal/api/server.go)

A `net.IP` is a byte slice of length 4 or 16, modelled as `List ℕ` with
byte-sized entries.  The `net` package predicates are transcribed from the
Go standard library (To4 recognises plain and IPv4-mapped forms). -/

/-- `ip[i]` with the zero default (the guarded Go code never indexes out of
    range on the modelled lengths). -/
def ipByte (ip : List ℕ) (i : ℕ) : ℕ :=
  (ip.get? i).getD 0

/-- Model of `net.IP.To4`: a 4-byte address, or the IPv4-mapped 16-byte form. -/
def to4? : List ℕ → Option (ℕ × ℕ × ℕ × ℕ)
  | [a, b, c, d] => some (a, b, c, d)
  | [0, 0, 0, 0, 0, 0, 0, 0, 0, 0, 255, 255, a, b, c, d] => some (a, b, c, d)
  | _ => none

/-- `net.IP.IsLoopback`. -/
def goIsLoopback (ip : List ℕ) : Bool :=
  match to4? ip with
  | some (a, _, _, _) => a == 127
  | none => ip == List.replicate 15 0 ++ [1]

/-- `net.IP.IsLinkLocalMulticast`. -/
def goIsLinkLocalMulticast (ip : List ℕ) : Bool :=
  match to4? ip with
  | some (a, b, c, _) => a == 224 && b == 0 && c == 0
  | none => ipByte ip 0 == 255 && (ipByte ip 1) % 16 == 2

/-- `net.IP.IsLinkLocalUnicast`. -/
def goIsLinkLocalUnicast (ip : List ℕ) : Bool :=
  match to4? ip with
  | some (a, b, _, _) => a == 169 && b == 254
  | none => ipByte ip 0 == 254 && (ipByte ip 1) / 64 == 2

/-- `net.IP.IsMulticast`. -/
def goIsMulticast (ip : List ℕ) : Bool :=
  match to4? ip with
  | some (a, _, _, _) => a / 16 == 14
  | none => ipByte ip 0 == 255

/-- `net.IP.IsPrivate` (RFC1918 for v4, fc00::/7 for v6). -/
def goIsPrivate (ip : List ℕ) : Bool :=
  match to4? ip with
  | some (a, b, _, _) =>
    a == 10 || (a == 172 && b / 16 == 1) || (a == 192 && b == 168)
  | none => ip.length == 16 && (ipByte ip 0) / 2 == 126

/-- `net.IP.IsUnspecified`. -/
def goIsUnspecified (ip : List ℕ) : Bool :=
  to4? ip == some (0, 0, 0, 0) || ip == List.replicate 16 0

/-- The `blockedPrefixes` membership test of parser_llm.go: the parsed
    `blockedPrefixStrings` prefixes, applied to the `netip` form of the
    address after `Unmap` (so IPv4-mapped addresses are checked against the
    v4 prefixes, as in the source). -/
def blockedByPrefixes (ip : List ℕ) : Bool :=
  match to4? ip with
  | some (a, b, _, _) =>
    a == 127 || a == 10 || (a == 172 && 16 ≤ b && b ≤ 31) ||
      (a == 192 && b == 168) || (a == 169 && b == 254)
  | none =>
    if ip.length == 16 then
      ip == List.replicate 15 0 ++ [1] ||
        (ipByte ip 0) / 2 == 126 ||
        (ipByte ip 0 == 254 && (ipByte ip 1) / 64 == 2)
    else false

/-- Model of `isPrivateIP` (parser_llm.go): the fetcher's per-dial and
    per-redirect address check. -/
def isPrivateIP (ip : List ℕ) : Bool :=
  if ip == [] then true
  else if goIsLoopback ip || goIsLinkLocalMulticast ip || goIsLinkLocalUnicast ip ||
      goIsMulticast ip || goIsPrivate ip || goIsUnspecified ip then true
  else if blockedByPrefixes ip then true
  else
    match to4? ip with
    | some (a, b, _, _) =>
      if a == 10 then true
      else if a == 172 && 16 ≤ b && b ≤ 31 then true
      else if a == 192 && b == 168 then true
      else if a == 169 && b == 254 then true
      else false
    | none => false

/-- Model of `isPrivateOrSpecialIP` (internal/api/server.go), the parallel
    check guarding `POST /ingest` — note its extra CGNAT clause
    `ip4[0] == 100 && ip4[1]&0xC0 == 64`. -/
def isPrivateOrSpecialIP (ip : List ℕ) : Bool :=
  if ip == [] then true
  else if goIsLoopback ip || goIsPrivate ip || goIsUnspecified ip || goIsMulticast ip ||
      goIsLinkLocalUnicast ip || goIsLinkLocalMulticast ip then true
  else
    match to4? ip with
    | some (a, b, _, _) =>
      (a == 100 && b / 64 == 1) || (a == 169 && b == 254)
    | none => false

/-- Follows the claim's words (C6/§4.1): the ranges the fetcher is said to
    reject — loopback, link-local v4/v6, RFC1918, CGNAT 100.64.0.0/10,
    fc00::/7, 169.254/16, multicast, unspecified. -/
def claimBlockedRangesC6 (ip : List ℕ) : Bool :=
  goIsLoopback ip || goIsLinkLocalUnicast ip || goIsLinkLocalMulticast ip ||
    goIsPrivate ip || goIsMulticast ip || goIsUnspecified ip ||
    (match to4? ip with
     | some (a, b, _, _) => a == 100 && 64 ≤ b && b ≤ 127
     | none => false)

/-- Model of Go `strings.HasSuffix`. -/
def strEndsWith (s pat : String) : Bool :=
  charsStartWith s.toList.reverse pat.toList.reverse

/-- The host-name part of `safeCheckRedirect` (parser_llm.go): literal
    `localhost` (case-folded) or a `.local` suffix is refused before any
    resolution. -/
def redirectHostBlocked (host : String) : Bool :=
  lowerStr host == "localhost" || strEndsWith (lowerStr host) ".local"

/-! ## Date normalization by source (pdf_deadline_extractor.go, date_parser.go) -/

/-- Model of `hasExplicitTimeToken`. -/
def hasExplicitTimeToken (token : String) : Bool :=
  let lower := lowerStr token
  if strContains lower ":" then true
  else
    [" am", " pm", "a.m", "p.m", "utc", "gmt", "hora", "hrs"].any
      (fun hint => strContains lower hint)

/-- The URL test inside `normalizeDateOnlyBySource`. -/
def sourceUsesLimaEOD (sourceURL : String) : Bool :=
  let lowerURL := lowerStr sourceURL
  strContains lowerURL "gob.pe" || strContains lowerURL "proinnovate" ||
    strContains lowerURL "prociencia"

/-- America/Lima is UTC−05:00 year-round (tzdata, constant since 1994), so
    converting a Lima civil time to UTC adds five hours. -/
def limaOffsetSeconds : ℤ := 18000

/-- Model of `toEndOfDay` (date_parser.go): 23:59:59 of the civil day in UTC
    (the nanosecond component is below the model's resolution). -/
def toEndOfDay (y m d : ℤ) : ℤ :=
  epochOf y m d 23 59 59

/-- Model of `normalizeDateOnlyBySource` (pdf_deadline_extractor.go):
    23:59:59 of the parsed civil day, in America/Lima for the three Peruvian
    sources and in UTC otherwise, expressed as a UTC instant. -/
def normalizeDateOnlyBySource (y m d : ℤ) (sourceURL : String) : ℤ :=
  if sourceUsesLimaEOD sourceURL then epochOf y m d 23 59 59 + limaOffsetSeconds
  else epochOf y m d 23 59 59

/-- The per-match normalization step of `parseDeadlineEvidenceFromText`
    (pdf_deadline_extractor.go lines 84-90): the parsed civil fields pass
    through unchanged when the token has an explicit time, and are replaced
    by the source-dependent end of day otherwise. -/
def normalizeExtractedDate (token sourceURL : String) (y m d h mi s : ℤ) : ℤ :=
  if hasExplicitTimeToken token then epochOf y m d h mi s
  else normalizeDateOnlyBySource y m d sourceURL

/-- Spanish month names of `parseSpanishDateWithRegex` (date_parser.go). -/
def monthFromSpanish? (w : String) : Option ℤ :=
  if w == "enero" then some 1
  else if w == "febrero" then some 2
  else if w == "marzo" then some 3
  else if w == "abril" then some 4
  else if w == "mayo" then some 5
  else if w == "junio" then some 6
  else if w == "julio" then some 7
  else if w == "agosto" then some 8
  else if w == "septiembre" then some 9
  else if w == "octubre" then some 10
  else if w == "noviembre" then some 11
  else if w == "diciembre" then some 12
  else none

/-- A one- or two-digit day field. -/
def parseDayField? (s : String) : Option ℤ :=
  match s.toList with
  | [a] => digitVal? a
  | [a, b] => do
    let x ← digitVal? a
    let y ← digitVal? b
    some (x * 10 + y)
  | _ => none

/-- A `20\d{2}` year field. -/
def parseYear20? (s : String) : Option ℤ :=
  match s.toList with
  | ['2', '0', a, b] => do
    let x ← digitVal? a
    let y ← digitVal? b
    some (2000 + x * 10 + y)
  | _ => none

/-- Model of `parseSpanishDateWithRegex` (date_parser.go) on an isolated
    token: `\d{1,2} de <month> (de|del) 20\d{2}`, case-insensitively, with
    `time.Parse`'s day validation.  (The earlier fixed-layout attempts of
    `parseDateRobust` all fail on `del` dates, so the regex branch decides.) -/
def parseSpanishDayMonthYear? (token : String) : Option (ℤ × ℤ × ℤ) :=
  match (fieldsAux (lowerStr token).toList []).map (fun w => String.mk w) with
  | [dStr, de1, monStr, de2, yStr] =>
    if de1 == "de" && (de2 == "de" || de2 == "del") then do
      let d ← parseDayField? dStr
      let m ← monthFromSpanish? monStr
      let y ← parseYear20? yStr
      if 1 ≤ d ∧ d ≤ daysInMonth y m then some (y, m, d) else none
    else none
  | _ => none

/-- The instant stored for a date-only Spanish evidence match fetched from
    `sourceURL` (the `parseDateRobust` + `normalizeDateOnlyBySource` chain of
    the extractor). -/
def spanishEvidenceInstant? (token sourceURL : String) : Option ℤ :=
  (parseSpanishDayMonthYear? token).map (fun t =>
    if hasExplicitTimeToken token then toEndOfDay t.1 t.2.1 t.2.2
    else normalizeDateOnlyBySource t.1 t.2.1 t.2.2 sourceURL)

/-! ## Listing WHERE clause (internal/db/store.go) -/

structure ListParams where
  query : String := ""
  source : String := ""
  region : List String := []
  funderType : List String := []
  country : List String := []
  agencyCode : String := ""
  agencyName : List String := []
  minAmount : ℤ := 0
  maxAmount : ℤ := 0
  status : String := ""
  deadlineDays : ℤ := 0
  isRolling : Option Bool := none
  categories : List String := []
  eligibility : List String := []
  deriving DecidableEq, Repr

/-- `x ≥ NOW()` for a nullable column (SQL NULL comparisons are not true). -/
def optGeNow (o : Option ℤ) (now : ℤ) : Bool :=
  match o with
  | some t => decide (now ≤ t)
  | none => false

/-- Model of `buildOpenTabConstraint` (store.go). -/
def buildOpenTabConstraint (r : Row) (now : ℤ) : Bool :=
  r.normalizedStatus == "open" && !r.isResultsPage &&
    (r.rollingEvidence || optGeNow r.nextDeadlineAt now || optGeNow r.closeAt now)

/-- The status-tab portion of `ListOpportunities` (store.go lines 182-207). -/
def statusTabConstraint (status : String) (r : Row) (now : ℤ) : Bool :=
  let target := if status == "" then "open" else status
  let target := if target == "active" then "open" else target
  if target == "open" then buildOpenTabConstraint r now
  else if target == "all" then true
  else if target == "closed" then
    r.normalizedStatus == "closed" || r.normalizedStatus == "archived"
  else
    let target := if target == "posted" then "open" else target
    r.normalizedStatus == target

/-- SQL `&&` array overlap. -/
def arraysOverlap (xs ys : List String) : Bool :=
  xs.any (fun x => ys.contains x)

/-- The full WHERE clause built by `ListOpportunities` as a row predicate.
    `textMatch` stands for the tsquery/ILIKE keyword disjunct, which depends
    only on the query string and the row's text columns. -/
def listWhere (params : ListParams) (textMatch : Bool) (r : Row) (now : ℤ) : Bool :=
  (params.query == "" || textMatch) &&
  (params.source == "" || r.sourceDomain == params.source) &&
  (params.region == ([] : List String) || params.region.contains r.region) &&
  (params.funderType == ([] : List String) || params.funderType.contains r.funderType) &&
  (params.country == ([] : List String) || params.country.contains r.country) &&
  (params.agencyCode == "" || r.agencyCode == params.agencyCode) &&
  (params.agencyName == ([] : List String) || params.agencyName.contains r.agencyName) &&
  (!(decide (params.minAmount > 0)) || decide (r.amountMax ≥ params.minAmount)) &&
  (!(decide (params.maxAmount > 0)) || decide (r.amountMin ≤ params.maxAmount)) &&
  statusTabConstraint params.status r now &&
  (!(decide (params.deadlineDays > 0)) ||
    (r.isRolling ||
      (match r.nextDeadlineAt with
       | some t => decide (now ≤ t) && decide (t ≤ now + params.deadlineDays * 86400)
       | none => false))) &&
  (match params.isRolling with
   | some b => r.isRolling == b
   | none => true) &&
  (params.categories == ([] : List String) || arraysOverlap r.categories params.categories) &&
  (params.eligibility == ([] : List String) || arraysOverlap r.eligibility params.eligibility)

/-! ## URL canonicalization (`CanonicalizeURL`, html strategy source file)

A model of the `net/url` round trip that `CanonicalizeURL` performs:
parse, lowercase the host, drop the fragment, delete tracking parameters
from the parsed query, re-encode the query with `url.Values.Encode` (keys
sorted, same-key values in order of appearance) and print.  Percent-escaping
is modelled as the identity (the escaping round trip is itself the identity
on the printed form, so it does not affect the stated properties). -/

/-- Splits at the first occurrence of `target`; `none` when absent. -/
def splitAtChar (target : Char) : List Char → List Char × Option (List Char)
  | [] => ([], none)
  | c :: rest =>
    if c == target then ([], some rest)
    else
      let p := splitAtChar target rest
      (c :: p.1, p.2)

/-- Splits at the first character belonging to `stops`. -/
def takeUntilAny (stops : List Char) : List Char → List Char × List Char
  | [] => ([], [])
  | c :: rest =>
    if stops.contains c then ([], c :: rest)
    else
      let p := takeUntilAny stops rest
      (c :: p.1, p.2)

/-- Splits at the first occurrence of the three-character sequence `://`. -/
def splitCSS : List Char → Option (List Char × List Char)
  | [] => none
  | c :: rest =>
    if c == ':' && charsStartWith rest ['/', '/'] then some ([], rest.drop 2)
    else
      match splitCSS rest with
      | some p => some (c :: p.1, p.2)
      | none => none

/-- `net/url` scheme syntax: an ASCII letter followed by letters, digits,
    `+`, `-` or `.`. -/
def validSchemeChars : List Char → Bool
  | [] => false
  | c :: rest => c.isAlpha && rest.all (fun x => x.isAlphanum || x == '+' || x == '-' || x == '.')

structure URLRec where
  scheme : String
  host : String
  path : String
  rawQuery : String
  fragment : String
  deriving DecidableEq, Repr

/-- Authority form: host up to the first `/` or `?`, then path up to `?`,
    then the raw query. -/
def parseAuthority (scheme : String) (rest : List Char) (frag : String) : URLRec :=
  let hp := takeUntilAny ['/', '?'] rest
  let pq := splitAtChar '?' hp.2
  { scheme := scheme, host := ⟨hp.1⟩, path := ⟨pq.1⟩,
    rawQuery := match pq.2 with | some q => (⟨q⟩ : String) | none => "",
    fragment := frag }

/-- Scheme-less form: protocol-relative `//host…` — except that, as in
    `net/url`'s parse, an input beginning `///` skips authority parsing and
    is a plain path; otherwise everything up to `?` is the path. -/
def parseNoScheme (beforeFrag : List Char) (frag : String) : URLRec :=
  if !charsStartWith beforeFrag ['/', '/', '/'] && charsStartWith beforeFrag ['/', '/'] then
    parseAuthority "" (beforeFrag.drop 2) frag
  else
    let pq := splitAtChar '?' beforeFrag
    { scheme := "", host := "", path := ⟨pq.1⟩,
      rawQuery := match pq.2 with | some q => (⟨q⟩ : String) | none => "",
      fragment := frag }

/-- Model of `url.Parse` on the http(s) grammar: the fragment is cut at the
    first `#`; a `scheme://` prefix is recognised when the candidate scheme
    is syntactically valid. -/
def parseURL (s : String) : URLRec :=
  let fp := splitAtChar '#' s.toList
  let frag : String := match fp.2 with | some f => (⟨f⟩ : String) | none => ""
  match splitCSS fp.1 with
  | some p =>
    if validSchemeChars p.1 then parseAuthority (⟨p.1⟩ : String) p.2 frag
    else parseNoScheme fp.1 frag
  | none => parseNoScheme fp.1 frag

/-- Splits on every occurrence of `target` (keeping empty segments). -/
def splitOnChar (target : Char) : List Char → List (List Char)
  | [] => [[]]
  | c :: rest =>
    if c == target then [] :: splitOnChar target rest
    else
      match splitOnChar target rest with
      | [] => [[c]]
      | seg :: segs => (c :: seg) :: segs

/-- Model of `url.ParseQuery`: split on `&`, skip empty and `;`-containing
    segments, cut each segment at its first `=`. -/
def parseQueryPairs (raw : String) : List (String × String) :=
  (splitOnChar '&' raw.toList).filterMap (fun seg =>
    if seg.isEmpty then none
    else if seg.contains ';' then none
    else
      let kv := splitAtChar '=' seg
      some ((⟨kv.1⟩ : String), match kv.2 with | some v => (⟨v⟩ : String) | none => ""))

/-- Lexicographic byte order on strings (the order of Go `sort.Strings`;
    UTF-8 byte order and code-point order agree). -/
def charListLE : List Char → List Char → Bool
  | [], _ => true
  | _ :: _, [] => false
  | a :: as, b :: bs => if a == b then charListLE as bs else decide (a < b)

def strLEb (a b : String) : Bool :=
  charListLE a.toList b.toList

/-- The key order of `url.Values.Encode`. -/
def pairKeyLE (a b : String × String) : Prop :=
  strLEb a.1 b.1 = true

instance : DecidableRel pairKeyLE := fun a b => instDecidableEqBool (strLEb a.1 b.1) true

/-- Stable sort by key — the key order of `url.Values.Encode` (same-key
    values keep their order of appearance, as Go's per-key slices do). -/
def sortByKey (pairs : List (String × String)) : List (String × String) :=
  List.insertionSort pairKeyLE pairs

/-- The tracking parameters `CanonicalizeURL` removes: any `utm_` prefix or
    an exact member of the deletion list. -/
def isTrackingParam (k : String) : Bool :=
  strStartsWith k "utm_" ||
    ["fbclid", "gclid", "mc_cid", "mc_eid", "mkt_tok", "ref", "session", "s_cid"].contains k

/-- `k=v` pairs joined with `&`. -/
def joinPairsChars : List (String × String) → List Char
  | [] => []
  | [p] => p.1.toList ++ '=' :: p.2.toList
  | p :: rest => p.1.toList ++ '=' :: p.2.toList ++ '&' :: joinPairsChars rest

/-- Model of `url.Values.Encode` for the list form of the query. -/
def encodeQueryChars (pairs : List (String × String)) : List Char :=
  joinPairsChars (sortByKey pairs)

/-- The printed query part for an optional raw query. -/
def qpart : Option (List Char) → List Char
  | some q => '?' :: q
  | none => []

/-- The parsed raw-query string for an optional raw query. -/
def qstr : Option (List Char) → String
  | some q => ⟨q⟩
  | none => ""

/-- Model of `url.URL.String` on the modelled grammar. -/
def encodeURL (u : URLRec) : String :=
  let base : List Char :=
    if u.scheme != "" then u.scheme.toList ++ ':' :: '/' :: '/' :: u.host.toList ++ u.path.toList
    else if u.host != "" then '/' :: '/' :: u.host.toList ++ u.path.toList
    else u.path.toList
  let withQuery := if u.rawQuery != "" then base ++ '?' :: u.rawQuery.toList else base
  ⟨if u.fragment != "" then withQuery ++ '#' :: u.fragment.toList else withQuery⟩

/-- The canonical form of a parsed URL: lowercase host, no fragment,
    tracking parameters deleted, query re-encoded. -/
def canonicalRec (rawURL : String) : URLRec :=
  let u := parseURL rawURL
  { scheme := u.scheme, host := lowerStr u.host, path := u.path,
    rawQuery := (⟨encodeQueryChars
      ((parseQueryPairs u.rawQuery).filter (fun p => !isTrackingParam p.1))⟩ : String),
    fragment := "" }

/-- Model of `CanonicalizeURL` (html strategy source): lowercase host, drop
    fragment, delete tracking params, re-encode. -/
def CanonicalizeURL (rawURL : String) : String :=
  encodeURL (canonicalRec rawURL)

/-! ## Claim-side comparison definitions and concrete inputs -/

/-- Follows the claim's words (C3): close-like means one of cierre, deadline,
    closes, submission, fecha máxima, or postul when not start-like. -/
def specCloseLikeC3 (label : String) : Bool :=
  strContains label "cierre" || strContains label "deadline" ||
    strContains label "closes" || strContains label "submission" ||
    strContains label "fecha máxima" ||
    (strContains label "postul" && !labelIsStartLike label)

/-- Follows the claim's words (C3): the strictly-future evidence dates whose
    label+snippet is close-like in the claim's sense. -/
def specLabeledCloseTimesC3 (opp : Opportunity) (now : ℤ) : List ℤ :=
  opp.deadlineEvidence.filterMap (fun ev =>
    match parseDeadlineCandidate ev.parsedDateISO with
    | none => none
    | some t =>
      if specCloseLikeC3 (lowerStr (ev.label ++ " " ++ ev.snippet)) && decide (now < t) then
        some t
      else none)

/-- Follows the claim's words (C3): earliest claim-close-like future evidence
    date, else earliest future candidate, else stored value, else none. -/
def specPickNextDeadlineC3 (opp : Opportunity) (now : ℤ) : Option ℤ :=
  match foldMin? (specLabeledCloseTimesC3 opp now) with
  | some t => some t
  | none =>
    match foldMin? ((allCandidates opp).filter (fun c => decide (now < c))) with
    | some b => some b
    | none => opp.nextDeadlineAt

/-- The results-keyword disjunct of the C2 claim over the same text the
    engine scans. -/
def resultsKeywordHit (opp : Opportunity) : Bool :=
  resultsKeywords.any (fun keyword =>
    strContains (lowerStr (String.intercalate " \n "
      [opp.title, opp.summary, HTMLToText opp.description, opp.sourceStatusRaw])) keyword)

/-- The active whitelist of `detectResultsPage`. -/
def oppStatusWhitelistedActive (opp : Opportunity) : Bool :=
  let srcLower := lowerStr opp.oppStatus
  srcLower == "posted" || srcLower == "active" || srcLower == "open" || srcLower == "forecasted"

/-- Spec scenario 2: labeled close should win over start and later deadline. -/
def oppScenario2 : Opportunity :=
  { deadlineEvidence :=
      [{ source := "html", url := "", snippet := "", confidence := 80,
         parsedDateISO := "2026-02-10T23:59:59Z", label := "inicio de postulaciones" },
       { source := "html", url := "", snippet := "", confidence := 80,
         parsedDateISO := "2026-02-20T23:59:59Z", label := "cierre de postulaciones" },
       { source := "html", url := "", snippet := "", confidence := 80,
         parsedDateISO := "2026-03-01T23:59:59Z", label := "deadline" }] }

def nowFeb1 : ℤ := epochOf 2026 2 1 0 0 0

/-- C3 counterexample input: a `fecha máxima` label that the claim calls
    close-like, next to an earlier unlabeled future candidate. -/
def oppFechaMaxima : Opportunity :=
  { deadlines := ["2026-02-15"],
    deadlineEvidence :=
      [{ source := "html", url := "", snippet := "", confidence := 80,
         parsedDateISO := "2026-03-01T00:00:00Z", label := "fecha máxima" }] }

/-- Spec scenario 6: a grants.gov detail URL containing the substring
    `results`, posted, with a future deadline. -/
def oppGrantsGov : Opportunity :=
  { title := "Research Grant", oppStatus := "posted",
    externalURL := "https://www.grants.gov/search-results-detail/HHS-NIH-123",
    deadlineAt := some (epochOf 2026 3 3 0 0 0) }

/-- C2 counterexample input: the stored `is_results_page` flag is set but no
    keyword occurs and `opp_status` is whitelisted active. -/
def oppResultsFlagOnly : Opportunity :=
  { title := "Plain grant", oppStatus := "posted", isResultsPage := true,
    deadlineAt := some (epochOf 2026 3 3 0 0 0) }

/-- C4 counterexample input: only a stale stored `next_deadline_at`. -/
def oppStaleNext : Opportunity :=
  { nextDeadlineAt := some (epochOf 2020 1 1 0 0 0) }

def nowJan2026 : ℤ := epochOf 2026 1 1 0 0 0

/-- C5 counterexample input, first write: carries rolling evidence. -/
def oppRollingWrite : Opportunity :=
  { title := "Rolling fund", oppStatus := "posted", isRolling := true }

/-- C5 counterexample input, second write: no rolling evidence. -/
def oppPlainWrite : Opportunity :=
  { title := "Plain grant", oppStatus := "posted" }

/-- Spec scenario 1 outcome: the evidence row the gob.pe extraction chain
    produces for `Cierre de postulaciones 18 de febrero del 2026`. -/
def oppGobPe : Opportunity :=
  { title := "Convocatoria Startup", oppStatus := "posted",
    externalURL := "https://www.gob.pe/institucion/x",
    deadlineEvidence :=
      [{ source := "html", url := "https://www.gob.pe/institucion/x",
         snippet := "Cierre de postulaciones 18 de febrero del 2026",
         parsedDateISO := "2026-02-19T04:59:59Z",
         label := "cierre de postulaciones", confidence := 80 }] }

/-! ## Theorems -/

theorem epochOf_epoch_zero : epochOf 1970 1 1 0 0 0 = 0 := by decide

theorem parseDeadlineCandidate_dateonly :
    parseDeadlineCandidate "2026-02-20" = some (epochOf 2026 2 20 0 0 0) := by decide

theorem parseDeadlineCandidate_rfc3339 :
    parseDeadlineCandidate "2026-02-19T04:59:59Z" = some (epochOf 2026 2 19 4 59 59) := by
  decide

/-- The running-minimum fold, started from `some b`, yields an element of
    `b :: l` that bounds all of them from below. -/
theorem foldMin?_go (l : List ℤ) : ∀ b : ℤ,
    ∃ c, (l.foldl (fun acc t =>
        match acc with
        | none => some t
        | some b' => if t < b' then some t else some b') (some b)) = some c ∧
      (c = b ∨ c ∈ l) ∧ c ≤ b ∧ ∀ x ∈ l, c ≤ x := by
  induction l with
  | nil => exact fun b => ⟨b, rfl, Or.inl rfl, le_refl b, by simp⟩
  | cons t rest ih =>
    intro b
    simp only [List.foldl_cons]
    by_cases h : t < b
    · simp only [if_pos h]
      obtain ⟨c, hc, hmem, hle, hall⟩ := ih t
      refine ⟨c, hc, ?_, le_trans hle (le_of_lt h), ?_⟩
      · rcases hmem with h' | h'
        · exact Or.inr (h' ▸ List.mem_cons_self t rest)
        · exact Or.inr (List.mem_cons_of_mem t h')
      · intro x hx
        rcases List.mem_cons.mp hx with h' | h'
        · exact h' ▸ hle
        · exact hall x h'
    · simp only [if_neg h]
      obtain ⟨c, hc, hmem, hle, hall⟩ := ih b
      refine ⟨c, hc, ?_, hle, ?_⟩
      · rcases hmem with h' | h'
        · exact Or.inl h'
        · exact Or.inr (List.mem_cons_of_mem t h')
      · intro x hx
        rcases List.mem_cons.mp hx with h' | h'
        · exact h' ▸ le_trans hle (not_lt.mp h)
        · exact hall x h'

/-- `foldMin?` returns `none` exactly on the empty list, and otherwise the
    minimum. -/
theorem foldMin?_spec (l : List ℤ) :
    (l = [] ∧ foldMin? l = none) ∨
      ∃ c, foldMin? l = some c ∧ c ∈ l ∧ ∀ x ∈ l, c ≤ x := by
  cases l with
  | nil => exact Or.inl ⟨rfl, rfl⟩
  | cons t rest =>
    right
    obtain ⟨c, hc, hmem, hle, hall⟩ := foldMin?_go rest t
    refine ⟨c, hc, ?_, ?_⟩
    · rcases hmem with h | h
      · exact h ▸ List.mem_cons_self t rest
      · exact List.mem_cons_of_mem t h
    · intro x hx
      rcases List.mem_cons.mp hx with h | h
      · exact h ▸ hle
      · exact hall x h

/-- Every labeled-close candidate is strictly in the future. -/
theorem labeledCloseTimes_future (opp : Opportunity) (now : ℤ) :
    ∀ t ∈ labeledCloseTimes opp now, now < t := by
  intro t ht
  simp only [labeledCloseTimes, List.mem_filterMap] at ht
  obtain ⟨ev, _, hev⟩ := ht
  cases hp : parseDeadlineCandidate ev.parsedDateISO with
  | none => rw [hp] at hev; simp at hev
  | some t' =>
    rw [hp] at hev
    simp only at hev
    split at hev
    · next hcond =>
      obtain ⟨_, hlt⟩ := Bool.and_eq_true _ _ |>.mp hcond
      cases hev
      exact of_decide_eq_true hlt
    · cases hev

/-- A non-nil `pickNextDeadline` is strictly after `now` or is the stored
    `next_deadline_at` fallback. -/
theorem pickNextDeadline_some (opp : Opportunity) (now t : ℤ)
    (h : pickNextDeadline opp now = some t) :
    now < t ∨ opp.nextDeadlineAt = some t := by
  unfold pickNextDeadline at h
  cases h1 : foldMin? (labeledCloseTimes opp now) with
  | some t' =>
    rw [h1] at h
    cases h
    rcases foldMin?_spec (labeledCloseTimes opp now) with ⟨_, hnone⟩ | ⟨c, hc, hmem, _⟩
    · rw [h1] at hnone; cases hnone
    · rw [h1] at hc
      cases hc
      exact Or.inl (labeledCloseTimes_future opp now t hmem)
  | none =>
    rw [h1] at h
    cases h2 : foldMin? ((allCandidates opp).filter (fun c => decide (now < c))) with
    | some b =>
      rw [h2] at h
      cases h
      rcases foldMin?_spec ((allCandidates opp).filter (fun c => decide (now < c))) with
        ⟨_, hnone⟩ | ⟨c, hc, hmem, _⟩
      · rw [h2] at hnone; cases hnone
      · rw [h2] at hc
        cases hc
        exact Or.inl (of_decide_eq_true (List.mem_filter.mp hmem).2)
    | none =>
      rw [h2] at h
      exact Or.inr h

/-- C3 (amended): next-deadline selection returns the earliest strictly-future
    evidence date whose label+snippet is close-like in the code's sense
    (cierre/deadline/closes/submission, or postul, and never start-like —
    `fecha máxima` is NOT close-like) if any exist; otherwise the earliest
    strictly-future candidate among deadlines, evidence dates, the stored
    next_deadline_at and deadline_at; otherwise the stored next_deadline_at
    (nil when absent).  With evidence {inicio @ 2026-02-10, cierre @
    2026-02-20, deadline @ 2026-03-01} at now = 2026-02-01 it returns
    2026-02-20T23:59:59Z. -/
theorem pickNextDeadline_characterization (opp : Opportunity) (now : ℤ) :
    (labeledCloseTimes opp now ≠ [] →
      ∃ t, pickNextDeadline opp now = some t ∧ t ∈ labeledCloseTimes opp now ∧
        ∀ u ∈ labeledCloseTimes opp now, t ≤ u) ∧
    (labeledCloseTimes opp now = [] →
      ((allCandidates opp).filter (fun c => decide (now < c)) ≠ [] →
        ∃ t, pickNextDeadline opp now = some t ∧
          t ∈ (allCandidates opp).filter (fun c => decide (now < c)) ∧
          ∀ u ∈ (allCandidates opp).filter (fun c => decide (now < c)), t ≤ u) ∧
      ((allCandidates opp).filter (fun c => decide (now < c)) = [] →
        pickNextDeadline opp now = opp.nextDeadlineAt)) ∧
    pickNextDeadline oppScenario2 nowFeb1 = some (epochOf 2026 2 20 23 59 59) := by
  refine ⟨?_, ?_, by decide⟩
  · intro hne
    rcases foldMin?_spec (labeledCloseTimes opp now) with ⟨hnil, _⟩ | ⟨c, hc, hmem, hall⟩
    · exact absurd hnil hne
    · exact ⟨c, by unfold pickNextDeadline; rw [hc], hmem, hall⟩
  · intro hlab
    constructor
    · intro hne
      rcases foldMin?_spec ((allCandidates opp).filter (fun c => decide (now < c))) with
        ⟨hnil, _⟩ | ⟨c, hc, hmem, hall⟩
      · exact absurd hnil hne
      · refine ⟨c, ?_, hmem, hall⟩
        unfold pickNextDeadline
        have h1 : foldMin? (labeledCloseTimes opp now) = none := by rw [hlab]; rfl
        rw [h1, hc]
    · intro hfil
      unfold pickNextDeadline
      have h1 : foldMin? (labeledCloseTimes opp now) = none := by rw [hlab]; rfl
      have h2 : foldMin? ((allCandidates opp).filter (fun c => decide (now < c))) = none := by
        rw [hfil]; rfl
      rw [h1, h2]

/-- C3 counterexample: the claim calls `fecha máxima` close-like, so on this
    record it mandates returning the 2026-03-01 evidence date; the code does
    not treat `fecha máxima` as close-like and returns the earlier unlabeled
    candidate 2026-02-15. -/
theorem fechaMaxima_not_closeLike :
    pickNextDeadline oppFechaMaxima nowFeb1 = some (epochOf 2026 2 15 0 0 0) ∧
    specPickNextDeadlineC3 oppFechaMaxima nowFeb1 = some (epochOf 2026 3 1 0 0 0) ∧
    (epochOf 2026 2 15 0 0 0 : ℤ) ≠ epochOf 2026 3 1 0 0 0 := by decide

/-- C3 witness: the first tier of the characterization applied to the
    scenario-2 record. -/
theorem pickNextDeadline_characterization_witness :
    ∃ t, pickNextDeadline oppScenario2 nowFeb1 = some t ∧
      t ∈ labeledCloseTimes oppScenario2 nowFeb1 ∧
      ∀ u ∈ labeledCloseTimes oppScenario2 nowFeb1, t ≤ u :=
  (pickNextDeadline_characterization oppScenario2 nowFeb1).1 (by decide)

/-- An if-chain whose leaves are each `pick` or `none` is `pick` or `none`. -/
theorem ite_option_or {c : Prop} [Decidable c] {a b pick : Option ℤ}
    (ha : a = pick ∨ a = none) (hb : b = pick ∨ b = none) :
    (if c then a else b) = pick ∨ (if c then a else b) = none := by
  by_cases h : c
  · simpa [h] using ha
  · simpa [h] using hb

/-- C4 (amended): the status decision is a pure function of the record and
    the instant, and a non-nil `next_deadline_at` is strictly after `now`
    unless it is the stored `next_deadline_at` returned by the final
    fallback (which may lie in the past). -/
theorem statusDecision_pure_and_future_next (opp : Opportunity) (now : ℤ) :
    (∀ (opp2 : Opportunity) (now2 : ℤ), opp = opp2 → now = now2 →
      ComputeStatusDecision opp now = ComputeStatusDecision opp2 now2) ∧
    (∀ t, (ComputeStatusDecision opp now).nextDeadlineAt = some t →
      now < t ∨ opp.nextDeadlineAt = some t) := by
  constructor
  · intro opp2 now2 h1 h2
    rw [h1, h2]
  · intro t h
    have hp : (ComputeStatusDecision opp now).nextDeadlineAt = pickNextDeadline opp now ∨
        (ComputeStatusDecision opp now).nextDeadlineAt = none := by
      simp only [ComputeStatusDecision, apply_ite StatusDecision.nextDeadlineAt]
      repeat' first
        | exact Or.inl rfl
        | exact Or.inr rfl
        | apply ite_option_or
    rcases hp with hp | hp
    · rw [h] at hp
      exact pickNextDeadline_some opp now t hp.symm
    · rw [h] at hp
      exact Option.noConfusion hp

/-- C4 counterexample: with only a stale stored `next_deadline_at`, the
    decision returns it even though it is not after `now`. -/
theorem staleStoredNextDeadlineReturned :
    (ComputeStatusDecision oppStaleNext nowJan2026).nextDeadlineAt =
      some (epochOf 2020 1 1 0 0 0) ∧
    ¬(nowJan2026 < epochOf 2020 1 1 0 0 0) := by decide

/-- C4 witness: the amended disjunction evaluated at the stale record. -/
theorem statusDecision_future_next_witness :
    nowJan2026 < epochOf 2020 1 1 0 0 0 ∨
      oppStaleNext.nextDeadlineAt = some (epochOf 2020 1 1 0 0 0) :=
  (statusDecision_pure_and_future_next oppStaleNext nowJan2026).2 _ (by decide)

/-- `if b then true else false` is `b`. -/
theorem if_true_else_false (b : Bool) : (if b = true then true else false) = b := by
  cases b <;> simp

/-- The keyword detector equals "keyword hit and not whitelisted active":
    the extra ProInnovate clause is subsumed by the keyword table. -/
theorem detectResultsPage_eq (opp : Opportunity) :
    detectResultsPage opp = (resultsKeywordHit opp && !oppStatusWhitelistedActive opp) := by
  unfold detectResultsPage resultsKeywordHit oppStatusWhitelistedActive resultsKeywords
  simp only [List.any_cons, List.any_nil]
  cases hw : (lowerStr opp.oppStatus == "posted" || lowerStr opp.oppStatus == "active" ||
      lowerStr opp.oppStatus == "open" || lowerStr opp.oppStatus == "forecasted") with
  | true => simp [hw]
  | false =>
    simp only [hw, Bool.false_eq_true, if_false, Bool.not_false, Bool.and_true]
    by_cases h1 : strContains (lowerStr (String.intercalate " \n "
        [opp.title, opp.summary, HTMLToText opp.description, opp.sourceStatusRaw]))
        "resultados finales" = true
    · simp [h1]
    · rw [Bool.not_eq_true] at h1
      by_cases h2 : strContains (lowerStr (String.intercalate " \n "
          [opp.title, opp.summary, HTMLToText opp.description, opp.sourceStatusRaw]))
          "ganadores" = true
      · simp [h1, h2]
      · rw [Bool.not_eq_true] at h2
        simp only [h1, h2, Bool.false_or, Bool.and_false, Bool.or_false]
        rw [if_true_else_false]

/-- In the results branch, the engine returns exactly the fixed record. -/
theorem decision_results_of_guard (opp : Opportunity) (now : ℤ)
    (h : (detectResultsPage opp || opp.isResultsPage) = true) :
    ComputeStatusDecision opp now =
      { normalizedStatus := "closed", statusReason := "results_page",
        statusConfidence := 99, nextDeadlineAt := pickNextDeadline opp now,
        isResultsPage := true } := by
  simp only [ComputeStatusDecision]
  rw [if_pos h]

/-- An if-chain with all-false leaves is false. -/
theorem ite_bool_false {c : Prop} [Decidable c] {a b : Bool}
    (ha : a = false) (hb : b = false) : (if c then a else b) = false := by
  by_cases h : c
  · simpa [h] using ha
  · simpa [h] using hb

/-- The decision's `isResultsPage` output is the branch guard. -/
theorem decision_isResultsPage (opp : Opportunity) (now : ℤ) :
    (ComputeStatusDecision opp now).isResultsPage =
      (detectResultsPage opp || opp.isResultsPage) := by
  cases hg : (detectResultsPage opp || opp.isResultsPage) with
  | true => rw [decision_results_of_guard opp now hg]
  | false =>
    simp only [ComputeStatusDecision, apply_ite StatusDecision.isResultsPage]
    rw [if_neg (by simp [hg])]
    repeat' first
      | rfl
      | apply ite_bool_false

/-- C2 (amended): the engine classifies a record as a results page
    (closed / results_page / 0.99 / is_results_page=true) exactly when the
    keyword rule fires — some of title/summary/description/source_status_raw
    contains a results keyword and `opp_status` is not whitelisted active —
    or the record's incoming `is_results_page` flag is already set.  The
    `ExternalURL` text is never consulted, so the grants.gov
    `search-results-detail` record with `opp_status=posted` and a future
    deadline classifies open. -/
theorem resultsPageClassification (opp : Opportunity) (now : ℤ) :
    (ComputeStatusDecision opp now =
        { normalizedStatus := "closed", statusReason := "results_page",
          statusConfidence := 99, nextDeadlineAt := pickNextDeadline opp now,
          isResultsPage := true } ↔
      ((resultsKeywordHit opp = true ∧ oppStatusWhitelistedActive opp = false) ∨
        opp.isResultsPage = true)) ∧
    (∀ url, ComputeStatusDecision { opp with externalURL := url } now =
        ComputeStatusDecision opp now) ∧
    ComputeStatusDecision oppGrantsGov nowFeb1 =
      { normalizedStatus := "open", statusReason := "future_deadline",
        statusConfidence := 93, nextDeadlineAt := some (epochOf 2026 3 3 0 0 0),
        isResultsPage := false } := by
  refine ⟨?_, fun url => rfl, by decide⟩
  constructor
  · intro h
    have hg : (detectResultsPage opp || opp.isResultsPage) = true := by
      have := decision_isResultsPage opp now
      rw [h] at this
      exact this.symm
    rcases Bool.or_eq_true _ _ |>.mp hg with hd | hf
    · left
      rw [detectResultsPage_eq] at hd
      obtain ⟨hk, hw⟩ := Bool.and_eq_true _ _ |>.mp hd
      exact ⟨hk, by simpa using hw⟩
    · exact Or.inr hf
  · intro h
    apply decision_results_of_guard
    rcases h with ⟨hk, hw⟩ | hf
    · have : detectResultsPage opp = true := by
        rw [detectResultsPage_eq, hk, hw]
        rfl
      simp [this]
    · simp [hf]

/-- C2 counterexample: the stored `is_results_page` flag alone forces the
    results classification, although no keyword occurs and `opp_status` is
    whitelisted active — the claim's "if and only if" is false on this
    record. -/
theorem resultsFlagAloneClassifies :
    ComputeStatusDecision oppResultsFlagOnly nowFeb1 =
      { normalizedStatus := "closed", statusReason := "results_page",
        statusConfidence := 99, nextDeadlineAt := some (epochOf 2026 3 3 0 0 0),
        isResultsPage := true } ∧
    resultsKeywordHit oppResultsFlagOnly = false ∧
    oppStatusWhitelistedActive oppResultsFlagOnly = true := by decide

/-- C10: `FromRaw`'s final status pass (`UpdateStatus`) overwrites
    `opp_status` with the decision when it is closed or archived, otherwise
    replaces an empty or unknown `opp_status` by `posted`; it stamps the five
    engine outputs and leaves every other field unchanged. -/
theorem updateStatus_mutation_and_frame (opp : Opportunity) (now : ℤ) :
    (UpdateStatus now opp).oppStatus =
      (if (ComputeStatusDecision opp now).normalizedStatus == "closed" ||
          (ComputeStatusDecision opp now).normalizedStatus == "archived" then
        (ComputeStatusDecision opp now).normalizedStatus
      else if opp.oppStatus == "" || opp.oppStatus == "unknown" then "posted"
      else opp.oppStatus) ∧
    (UpdateStatus now opp).normalizedStatus = (ComputeStatusDecision opp now).normalizedStatus ∧
    (UpdateStatus now opp).statusReason = (ComputeStatusDecision opp now).statusReason ∧
    (UpdateStatus now opp).statusConfidence = (ComputeStatusDecision opp now).statusConfidence ∧
    (UpdateStatus now opp).nextDeadlineAt = (ComputeStatusDecision opp now).nextDeadlineAt ∧
    (UpdateStatus now opp).isResultsPage = (ComputeStatusDecision opp now).isResultsPage ∧
    (UpdateStatus now opp).title = opp.title ∧
    (UpdateStatus now opp).summary = opp.summary ∧
    (UpdateStatus now opp).description = opp.description ∧
    (UpdateStatus now opp).externalURL = opp.externalURL ∧
    (UpdateStatus now opp).sourceDomain = opp.sourceDomain ∧
    (UpdateStatus now opp).sourceID = opp.sourceID ∧
    (UpdateStatus now opp).canonicalURL = opp.canonicalURL ∧
    (UpdateStatus now opp).rawURL = opp.rawURL ∧
    (UpdateStatus now opp).contentType = opp.contentType ∧
    (UpdateStatus now opp).sourceStatusRaw = opp.sourceStatusRaw ∧
    (UpdateStatus now opp).isRolling = opp.isRolling ∧
    (UpdateStatus now opp).rollingEvidence = opp.rollingEvidence ∧
    (UpdateStatus now opp).openDate = opp.openDate ∧
    (UpdateStatus now opp).openAt = opp.openAt ∧
    (UpdateStatus now opp).closeAt = opp.closeAt ∧
    (UpdateStatus now opp).expirationAt = opp.expirationAt ∧
    (UpdateStatus now opp).deadlineAt = opp.deadlineAt ∧
    (UpdateStatus now opp).deadlines = opp.deadlines ∧
    (UpdateStatus now opp).deadlineEvidence = opp.deadlineEvidence ∧
    (UpdateStatus now opp).sourceEvidenceJSON = opp.sourceEvidenceJSON ∧
    (UpdateStatus now opp).amountMin = opp.amountMin ∧
    (UpdateStatus now opp).amountMax = opp.amountMax ∧
    (UpdateStatus now opp).currency = opp.currency ∧
    (UpdateStatus now opp).categories = opp.categories ∧
    (UpdateStatus now opp).eligibility = opp.eligibility := by
  unfold UpdateStatus
  repeat' split <;> simp_all

/-- C8: under the default/open/active status tab, a row passes the WHERE
    clause only if `normalized_status='open'`, `is_results_page=false` and
    (rolling_evidence or a future `next_deadline_at`/`close_at`); in
    particular a row with `is_results_page=true` is always excluded. -/
theorem openTabListingConstraint (params : ListParams) (textMatch : Bool) (r : Row) (now : ℤ)
    (hstatus : params.status = "" ∨ params.status = "open" ∨ params.status = "active") :
    (listWhere params textMatch r now = true →
      r.normalizedStatus = "open" ∧ r.isResultsPage = false ∧
        (r.rollingEvidence = true ∨ optGeNow r.nextDeadlineAt now = true ∨
          optGeNow r.closeAt now = true)) ∧
    (r.isResultsPage = true → listWhere params textMatch r now = false) := by
  have htab : statusTabConstraint params.status r now = buildOpenTabConstraint r now := by
    rcases hstatus with h | h | h <;> rw [h] <;> rfl
  constructor
  · intro h
    simp only [listWhere, htab, Bool.and_eq_true] at h
    obtain ⟨⟨⟨⟨⟨_, hopen⟩, _⟩, _⟩, _⟩, _⟩ := h
    simp only [buildOpenTabConstraint, Bool.and_eq_true] at hopen
    obtain ⟨⟨hns, hres⟩, hor⟩ := hopen
    refine ⟨?_, ?_, ?_⟩
    · exact beq_iff_eq.mp hns
    · simpa using hres
    · rcases Bool.or_eq_true _ _ |>.mp hor with h' | h'
      · rcases Bool.or_eq_true _ _ |>.mp h' with h'' | h''
        · exact Or.inl h''
        · exact Or.inr (Or.inl h'')
      · exact Or.inr (Or.inr h')
  · intro hres
    unfold listWhere
    rw [htab]
    simp [buildOpenTabConstraint, hres]

/-- C8 witness: an open row flagged as a results page is excluded from the
    default tab. -/
theorem openTabListing_witness :
    listWhere {} true
        { normalizedStatus := "open", rollingEvidence := true, isResultsPage := true } 0 =
      false :=
  (openTabListingConstraint {} true
    { normalizedStatus := "open", rollingEvidence := true, isResultsPage := true } 0
    (Or.inl rfl)).2 (by decide)

/-- C7: a date snippet without an explicit time token is normalized to
    23:59:59 of its civil day in UTC, except that gob.pe / proinnovate /
    prociencia sources compute end of day in America/Lima (UTC−05) and
    convert to UTC; in particular the gob.pe table row
    `18 de febrero del 2026` yields 2026-02-19T04:59:59Z, and at
    now = 2026-02-01 the record classifies open / future_deadline. -/
theorem dateOnlyNormalizationBySource (token sourceURL : String) (y m d h mi s : ℤ)
    (hTok : hasExplicitTimeToken token = false) :
    (normalizeExtractedDate token sourceURL y m d h mi s =
      (if sourceUsesLimaEOD sourceURL then epochOf y m d 0 0 0 + 86399 + limaOffsetSeconds
       else epochOf y m d 0 0 0 + 86399)) ∧
    parseSpanishDayMonthYear? "18 de febrero del 2026" = some (2026, 2, 18) ∧
    hasExplicitTimeToken "18 de febrero del 2026" = false ∧
    spanishEvidenceInstant? "18 de febrero del 2026" "https://www.gob.pe/institucion/x" =
      some (epochOf 2026 2 19 4 59 59) ∧
    parseDeadlineCandidate "2026-02-19T04:59:59Z" = some (epochOf 2026 2 19 4 59 59) ∧
    ComputeStatusDecision oppGobPe nowFeb1 =
      { normalizedStatus := "open", statusReason := "future_deadline",
        statusConfidence := 93, nextDeadlineAt := some (epochOf 2026 2 19 4 59 59),
        isResultsPage := false } := by
  refine ⟨?_, by decide, by decide, by decide, by decide, by decide⟩
  unfold normalizeExtractedDate normalizeDateOnlyBySource
  rw [hTok]
  simp only [Bool.false_eq_true, if_false]
  split
  · unfold epochOf; ring
  · unfold epochOf; ring

/-- C7 witness: the normalization rule applied to the gob.pe token. -/
theorem dateOnlyNormalization_witness :
    normalizeExtractedDate "18 de febrero del 2026" "https://www.gob.pe/institucion/x"
        2026 2 18 23 59 59 =
      epochOf 2026 2 18 0 0 0 + 86399 + limaOffsetSeconds := by
  have h := (dateOnlyNormalizationBySource "18 de febrero del 2026"
    "https://www.gob.pe/institucion/x" 2026 2 18 23 59 59 (by decide)).1
  rw [h, if_pos]
  decide

/-- C6: the claim is right about the intended policy and the fetcher code is
    wrong: `isPrivateIP` never blocks CGNAT 100.64.0.0/10 (the sibling
    `isPrivateOrSpecialIP` guarding `POST /ingest` does), while it does
    block the other claimed ranges, and the redirect validator refuses
    `localhost`/`.local` hosts by name. -/
theorem fetcherMissesCgnatRange :
    claimBlockedRangesC6 [100, 64, 0, 1] = true ∧
    isPrivateIP [100, 64, 0, 1] = false ∧
    isPrivateOrSpecialIP [100, 64, 0, 1] = true ∧
    isPrivateIP [10, 0, 0, 1] = true ∧
    isPrivateIP [127, 0, 0, 1] = true ∧
    isPrivateIP [172, 16, 5, 5] = true ∧
    isPrivateIP [192, 168, 1, 1] = true ∧
    isPrivateIP [169, 254, 9, 9] = true ∧
    isPrivateIP [224, 0, 0, 251] = true ∧
    isPrivateIP [0, 0, 0, 0] = true ∧
    isPrivateIP (List.replicate 15 0 ++ [1]) = true ∧
    isPrivateIP (252 :: List.replicate 15 0) = true ∧
    isPrivateIP (254 :: 128 :: List.replicate 14 0) = true ∧
    isPrivateIP (0 :: 100 :: List.replicate 12 0 ++ [100, 64]) = false ∧
    redirectHostBlocked "LOCALHOST" = true ∧
    redirectHostBlocked "printer.local" = true ∧
    redirectHostBlocked "example.com" = false := by decide

/-- The confidence of a fold of upserts is one of the accumulated
    confidences and bounds them all. -/
theorem upsertFold_confidence (ws : List Opportunity) : ∀ r : Row,
    ((ws.foldl applyUpsert r).statusConfidence = r.statusConfidence ∨
      (ws.foldl applyUpsert r).statusConfidence ∈
        ws.map (fun o => o.statusConfidence)) ∧
    r.statusConfidence ≤ (ws.foldl applyUpsert r).statusConfidence ∧
    ∀ o ∈ ws, o.statusConfidence ≤ (ws.foldl applyUpsert r).statusConfidence := by
  induction ws with
  | nil => exact fun r => ⟨Or.inl rfl, le_refl _, by simp⟩
  | cons o rest ih =>
    intro r
    simp only [List.foldl_cons]
    obtain ⟨hmem, hle, hall⟩ := ih (applyUpsert r o)
    have hconf : (applyUpsert r o).statusConfidence =
        max o.statusConfidence r.statusConfidence := rfl
    refine ⟨?_, ?_, ?_⟩
    · rcases hmem with h | h
      · rw [h, hconf]
        rcases max_choice o.statusConfidence r.statusConfidence with h' | h'
        · exact Or.inr (by simp [h'])
        · exact Or.inl h'
      · exact Or.inr (by simpa using Or.inr h)
    · refine le_trans ?_ hle
      rw [hconf]
      exact le_max_right _ _
    · intro o' ho'
      rcases List.mem_cons.mp ho' with h' | h'
      · subst h'
        refine le_trans ?_ hle
        rw [hconf]
        exact le_max_left _ _
      · exact hall o' h'

/-- C1: over any upsert sequence for one key, the stored
    `status_confidence` never decreases step to step and finally equals the
    maximum of the per-write confidences; a stored `opp_status` in
    {closed, archived, funded} is never changed by a write whose incoming
    `opp_status` is empty or `posted`. -/
theorem upsertConfidenceMonotoneMaxAndStickyStatus (w : Opportunity) (ws : List Opportunity) :
    (∀ (r : Row) (o : Opportunity),
      r.statusConfidence ≤ (applyUpsert r o).statusConfidence) ∧
    ((runUpserts w ws).statusConfidence ∈
        (w :: ws).map (fun o => o.statusConfidence) ∧
      ∀ c ∈ (w :: ws).map (fun o => o.statusConfidence),
        c ≤ (runUpserts w ws).statusConfidence) ∧
    (∀ (r : Row) (o : Opportunity),
      (r.oppStatus = "closed" ∨ r.oppStatus = "archived" ∨ r.oppStatus = "funded") →
      (o.oppStatus = "" ∨ o.oppStatus = "posted") →
      (applyUpsert r o).oppStatus = r.oppStatus) := by
  refine ⟨?_, ?_, ?_⟩
  · intro r o
    exact le_max_right _ _
  · obtain ⟨hmem, hle, hall⟩ := upsertFold_confidence ws (insertRow w)
    have hinsert : (insertRow w).statusConfidence = w.statusConfidence := rfl
    have hrun : (runUpserts w ws).statusConfidence =
        (ws.foldl applyUpsert (insertRow w)).statusConfidence := rfl
    constructor
    · rw [hrun, List.map_cons]
      rcases hmem with h | h
      · rw [h, hinsert]
        exact List.mem_cons_self _ _
      · exact List.mem_cons_of_mem _ h
    · intro c hc
      rw [hrun]
      rcases List.mem_map.mp hc with ⟨o, ho, rfl⟩
      rcases List.mem_cons.mp ho with h' | h'
      · subst h'
        exact le_of_eq_of_le hinsert.symm hle
      · exact hall o h'
  · intro r o hr ho
    have hcond : ((r.oppStatus == "closed" || r.oppStatus == "archived" ||
        r.oppStatus == "funded") &&
        (o.oppStatus == "posted" || o.oppStatus == "")) = true := by
      rcases hr with h | h | h <;> rcases ho with h' | h' <;> simp [h, h']
    show (if ((r.oppStatus == "closed" || r.oppStatus == "archived" ||
        r.oppStatus == "funded") &&
        (o.oppStatus == "posted" || o.oppStatus == "")) = true then r.oppStatus
      else if (o.oppStatus == "") = true then r.oppStatus else o.oppStatus) = r.oppStatus
    rw [if_pos hcond]

/-- C1 witness: a funded row keeps its status against a posted re-write, and
    a two-write run lands on the larger confidence. -/
theorem upsertSticky_witness :
    (applyUpsert
        { oppStatus := "funded", statusConfidence := 80 }
        { oppStatus := "posted", statusConfidence := 60 }).oppStatus = "funded" :=
  (upsertConfidenceMonotoneMaxAndStickyStatus {} []).2.2
    { oppStatus := "funded", statusConfidence := 80 }
    { oppStatus := "posted", statusConfidence := 60 }
    (Or.inr (Or.inr rfl)) (Or.inr rfl)

/-- C5 (amended): the record `SaveOpportunity` sends to the database
    satisfies `rolling_evidence = false → is_rolling = false`, and the
    stored row keeps that invariant whenever its previous `is_rolling` was
    false; the OR-merge of `is_rolling` can violate it otherwise. -/
theorem rollingForcedOnPreparedWrite (opp : Opportunity) (now : ℤ) (r : Row) :
    ((prepareForWrite now opp).rollingEvidence = false →
      (prepareForWrite now opp).isRolling = false) ∧
    (r.isRolling = false →
      (applyUpsert r (prepareForWrite now opp)).rollingEvidence = false →
      (applyUpsert r (prepareForWrite now opp)).isRolling = false) := by
  have hffr : ∀ o : Opportunity, (forceRollingFalse o).rollingEvidence = o.rollingEvidence := by
    intro o
    unfold forceRollingFalse
    split <;> rfl
  have hffi : ∀ o : Opportunity, o.rollingEvidence = false →
      (forceRollingFalse o).isRolling = false := by
    intro o h
    unfold forceRollingFalse
    rw [h]
    rfl
  have hmain : (prepareForWrite now opp).rollingEvidence = false →
      (prepareForWrite now opp).isRolling = false := by
    intro h
    unfold prepareForWrite at h ⊢
    rw [hffr] at h
    exact hffi _ h
  refine ⟨hmain, ?_⟩
  intro hr hre
  have h1 : (applyUpsert r (prepareForWrite now opp)).rollingEvidence =
      (prepareForWrite now opp).rollingEvidence := rfl
  have h2 : (applyUpsert r (prepareForWrite now opp)).isRolling =
      (r.isRolling || (prepareForWrite now opp).isRolling) := rfl
  rw [h2, hr, hmain (h1 ▸ hre)]
  rfl

/-- C5 counterexample: a rolling first write followed by a non-rolling
    re-write of the same key leaves the stored row with
    `rolling_evidence = false` and `is_rolling = true`. -/
theorem rollingEvidenceInvariantBrokenByUpsert :
    (savedRun 0 oppRollingWrite [oppPlainWrite]).rollingEvidence = false ∧
    (savedRun 0 oppRollingWrite [oppPlainWrite]).isRolling = true := by decide

/-- C5 witness: the amended invariant evaluated on a non-rolling write over
    a non-rolling stored row. -/
theorem rollingForcedOnPreparedWrite_witness :
    (applyUpsert {} (prepareForWrite 0 oppPlainWrite)).isRolling = false :=
  (rollingForcedOnPreparedWrite oppPlainWrite 0 {}).2 (by decide) (by decide)

/-! ### URL canonicalization lemmas (towards C9) -/

theorem charOfNat_toNat {n : ℕ} (h : n < 55296) : (Char.ofNat n).toNat = n := by
  unfold Char.ofNat
  rw [dif_pos (Or.inl h : n.isValidChar)]
  simp [Char.ofNatAux, Char.toNat, UInt32.toNat]

theorem toLower_toNat (c : Char) :
    (Char.toLower c).toNat =
      if c.toNat ≥ 65 ∧ c.toNat ≤ 90 then c.toNat + 32 else c.toNat := by
  show (if c.toNat ≥ 65 ∧ c.toNat ≤ 90 then Char.ofNat (c.toNat + 32) else c).toNat = _
  by_cases h : c.toNat ≥ 65 ∧ c.toNat ≤ 90
  · rw [if_pos h, if_pos h]
    exact charOfNat_toNat (by omega)
  · rw [if_neg h, if_neg h]

theorem toLower_fix (d : Char) (hd : ¬(d.toNat ≥ 65 ∧ d.toNat ≤ 90)) :
    Char.toLower d = d := by
  show (if d.toNat ≥ 65 ∧ d.toNat ≤ 90 then Char.ofNat (d.toNat + 32) else d) = d
  rw [if_neg hd]

theorem toLower_toLower (c : Char) :
    Char.toLower (Char.toLower c) = Char.toLower c := by
  apply toLower_fix
  rw [toLower_toNat]
  split <;> omega

/-- Lowercasing cannot produce or remove a character whose code point is
    below 65 (all URL delimiter characters are). -/
theorem toLower_eq_low {c d : Char} (hd : d.toNat < 65) :
    Char.toLower c = d ↔ c = d := by
  constructor
  · intro h
    by_cases hc : c.toNat ≥ 65 ∧ c.toNat ≤ 90
    · exfalso
      have h2 := toLower_toNat c
      rw [if_pos hc, h] at h2
      omega
    · rwa [toLower_fix c hc] at h
  · intro h
    subst h
    exact toLower_fix _ (by omega)

theorem lowerStr_toList (s : String) :
    (lowerStr s).toList = s.toList.map Char.toLower := rfl

theorem lowerStr_lowerStr (s : String) : lowerStr (lowerStr s) = lowerStr s := by
  unfold lowerStr
  apply congrArg
  show (String.mk (s.toList.map Char.toLower)).toList.map Char.toLower = _
  rw [show (String.mk (s.toList.map Char.toLower)).toList = s.toList.map Char.toLower from rfl,
    List.map_map]
  exact List.map_congr_left (fun c _ => toLower_toLower c)

theorem not_mem_lowerStr {s : String} {d : Char} (hd : d.toNat < 65)
    (h : d ∉ s.toList) : d ∉ (lowerStr s).toList := by
  rw [lowerStr_toList]
  intro hmem
  rcases List.mem_map.mp hmem with ⟨c, hc, hceq⟩
  exact h ((toLower_eq_low hd).mp hceq ▸ hc)

theorem charListLE_total : ∀ a b : List Char, charListLE a b = true ∨ charListLE b a = true := by
  intro a
  induction a with
  | nil => intro b; exact Or.inl rfl
  | cons x xs ih =>
    intro b
    cases b with
    | nil => exact Or.inr rfl
    | cons y ys =>
      by_cases hxy : x = y
      · subst hxy
        simp only [charListLE, beq_self_eq_true, if_pos]
        exact ih ys
      · have hbeq : (x == y) = false := beq_eq_false_iff_ne.mpr hxy
        have hbeq' : (y == x) = false := beq_eq_false_iff_ne.mpr (Ne.symm hxy)
        simp only [charListLE, hbeq, hbeq', Bool.false_eq_true, if_false]
        rcases lt_trichotomy x y with h | h | h
        · exact Or.inl (decide_eq_true h)
        · exact absurd h hxy
        · exact Or.inr (decide_eq_true h)

theorem charListLE_trans : ∀ a b c : List Char,
    charListLE a b = true → charListLE b c = true → charListLE a c = true := by
  intro a
  induction a with
  | nil => intro b c _ _; rfl
  | cons x xs ih =>
    intro b c hab hbc
    cases b with
    | nil => simp [charListLE] at hab
    | cons y ys =>
      cases c with
      | nil => simp [charListLE] at hbc
      | cons z zs =>
        by_cases hxy : x = y <;> by_cases hyz : y = z
        · subst hxy; subst hyz
          simp only [charListLE, beq_self_eq_true, if_pos] at hab hbc ⊢
          exact ih ys zs hab hbc
        · subst hxy
          simp only [charListLE, beq_self_eq_true, if_pos] at hab
          simp only [charListLE, beq_eq_false_iff_ne.mpr hyz, Bool.false_eq_true, if_false]
            at hbc ⊢
          exact hbc
        · subst hyz
          simp only [charListLE, beq_eq_false_iff_ne.mpr hxy, Bool.false_eq_true, if_false]
            at hab ⊢
          exact hab
        · have h1 : decide (x < y) = true := by
            simpa [charListLE, beq_eq_false_iff_ne.mpr hxy] using hab
          have h2 : decide (y < z) = true := by
            simpa [charListLE, beq_eq_false_iff_ne.mpr hyz] using hbc
          have hxz : x < z := lt_trans (of_decide_eq_true h1) (of_decide_eq_true h2)
          have hxz' : x ≠ z := ne_of_lt hxz
          simp only [charListLE, beq_eq_false_iff_ne.mpr hxz', Bool.false_eq_true, if_false]
          exact decide_eq_true hxz

instance : IsTotal (String × String) pairKeyLE :=
  ⟨fun a b => charListLE_total a.1.toList b.1.toList⟩

instance : IsTrans (String × String) pairKeyLE :=
  ⟨fun a b c => charListLE_trans a.1.toList b.1.toList c.1.toList⟩

theorem splitAtChar_not_mem {target : Char} {l : List Char} (h : target ∉ l) :
    splitAtChar target l = (l, none) := by
  induction l with
  | nil => rfl
  | cons c rest ih =>
    rw [List.mem_cons, not_or] at h
    obtain ⟨h1, h2⟩ := h
    have hc : (c == target) = false := beq_eq_false_iff_ne.mpr (Ne.symm h1)
    unfold splitAtChar
    simp only [hc, Bool.false_eq_true, if_false, ih h2]

theorem splitAtChar_append {target : Char} {p q : List Char} (hp : target ∉ p) :
    splitAtChar target (p ++ target :: q) = (p, some q) := by
  induction p with
  | nil =>
    show splitAtChar target (target :: q) = ([], some q)
    unfold splitAtChar
    simp
  | cons c rest ih =>
    rw [List.mem_cons, not_or] at hp
    obtain ⟨h1, h2⟩ := hp
    have hc : (c == target) = false := beq_eq_false_iff_ne.mpr (Ne.symm h1)
    show splitAtChar target (c :: (rest ++ target :: q)) = (c :: rest, some q)
    unfold splitAtChar
    simp only [hc, Bool.false_eq_true, if_false, ih h2]

theorem splitAtChar_fst_not_target (target : Char) :
    ∀ l : List Char, target ∉ (splitAtChar target l).1 := by
  intro l
  induction l with
  | nil => simp [splitAtChar]
  | cons c rest ih =>
    unfold splitAtChar
    by_cases hc : (c == target) = true
    · simp [hc]
    · rw [Bool.not_eq_true] at hc
      simp only [hc, Bool.false_eq_true, if_false]
      intro hmem
      rcases List.mem_cons.mp hmem with h | h
      · exact absurd (beq_eq_false_iff_ne.mp hc) (fun hne => hne h.symm)
      · exact ih h

theorem splitAtChar_fst_subset (target : Char) :
    ∀ l : List Char, ∀ c ∈ (splitAtChar target l).1, c ∈ l := by
  intro l
  induction l with
  | nil => simp [splitAtChar]
  | cons a rest ih =>
    unfold splitAtChar
    by_cases ha : (a == target) = true
    · simp [ha]
    · rw [Bool.not_eq_true] at ha
      simp only [ha, Bool.false_eq_true, if_false]
      intro c hc
      rcases List.mem_cons.mp hc with h | h
      · exact h ▸ List.mem_cons_self a rest
      · exact List.mem_cons_of_mem a (ih c h)

theorem splitAtChar_snd_subset (target : Char) :
    ∀ l q : List Char, (splitAtChar target l).2 = some q → ∀ c ∈ q, c ∈ l := by
  intro l
  induction l with
  | nil => intro q hq; cases hq
  | cons a rest ih =>
    intro q hq
    unfold splitAtChar at hq
    by_cases ha : (a == target) = true
    · simp only [ha, if_pos] at hq
      cases hq
      intro c hc
      exact List.mem_cons_of_mem a hc
    · rw [Bool.not_eq_true] at ha
      simp only [ha, Bool.false_eq_true, if_false] at hq
      intro c hc
      exact List.mem_cons_of_mem a (ih q hq c hc)

theorem takeUntilAny_fst_no_stop (stops : List Char) :
    ∀ l : List Char, ∀ c ∈ (takeUntilAny stops l).1, stops.contains c = false := by
  intro l
  induction l with
  | nil => simp [takeUntilAny]
  | cons a rest ih =>
    unfold takeUntilAny
    by_cases ha : stops.contains a = true
    · rw [if_pos ha]
      simp
    · rw [Bool.not_eq_true] at ha
      simp only [ha, Bool.false_eq_true, if_false]
      intro c hc
      rcases List.mem_cons.mp hc with h | h
      · exact h ▸ ha
      · exact ih c h

theorem takeUntilAny_fst_subset (stops : List Char) :
    ∀ l : List Char, ∀ c ∈ (takeUntilAny stops l).1, c ∈ l := by
  intro l
  induction l with
  | nil => simp [takeUntilAny]
  | cons a rest ih =>
    unfold takeUntilAny
    by_cases ha : stops.contains a = true
    · rw [if_pos ha]
      simp
    · rw [Bool.not_eq_true] at ha
      simp only [ha, Bool.false_eq_true, if_false]
      intro c hc
      rcases List.mem_cons.mp hc with h | h
      · exact h ▸ List.mem_cons_self a rest
      · exact List.mem_cons_of_mem a (ih c h)

theorem takeUntilAny_snd_subset (stops : List Char) :
    ∀ l : List Char, ∀ c ∈ (takeUntilAny stops l).2, c ∈ l := by
  intro l
  induction l with
  | nil => simp [takeUntilAny]
  | cons a rest ih =>
    unfold takeUntilAny
    by_cases ha : stops.contains a = true
    · rw [if_pos ha]
      intro c hc
      exact hc
    · rw [Bool.not_eq_true] at ha
      simp only [ha, Bool.false_eq_true, if_false]
      intro c hc
      exact List.mem_cons_of_mem a (ih c hc)

theorem takeUntilAny_all {stops : List Char} {l : List Char}
    (h : ∀ c ∈ l, stops.contains c = false) : takeUntilAny stops l = (l, []) := by
  induction l with
  | nil => rfl
  | cons a rest ih =>
    unfold takeUntilAny
    simp only [h a (List.mem_cons_self a rest), Bool.false_eq_true, if_false,
      ih (fun c hc => h c (List.mem_cons_of_mem a hc))]

theorem takeUntilAny_append {stops : List Char} {p q : List Char} {c0 : Char}
    (hp : ∀ c ∈ p, stops.contains c = false) (hc : stops.contains c0 = true) :
    takeUntilAny stops (p ++ c0 :: q) = (p, c0 :: q) := by
  induction p with
  | nil =>
    show takeUntilAny stops (c0 :: q) = ([], c0 :: q)
    unfold takeUntilAny
    rw [if_pos hc]
  | cons a rest ih =>
    show takeUntilAny stops (a :: (rest ++ c0 :: q)) = (a :: rest, c0 :: q)
    unfold takeUntilAny
    simp only [hp a (List.mem_cons_self a rest), Bool.false_eq_true, if_false,
      ih (fun c h' => hp c (List.mem_cons_of_mem a h'))]

theorem charsStartWith_two {l : List Char} (h : charsStartWith l ['/', '/'] = true) :
    l = '/' :: '/' :: l.drop 2 := by
  match l with
  | [] => cases h
  | [c] => simp [charsStartWith] at h
  | c1 :: c2 :: rest =>
    simp only [charsStartWith, Bool.and_eq_true, beq_iff_eq] at h
    obtain ⟨h1, h2, -⟩ := h
    subst h1
    subst h2
    rfl

theorem charsStartWith_slashes (x : List Char) :
    charsStartWith ('/' :: '/' :: x) ['/', '/'] = true := by
  simp [charsStartWith]

theorem charsStartWith_three {l : List Char}
    (h : charsStartWith l ['/', '/', '/'] = true) :
    l = '/' :: '/' :: '/' :: l.drop 3 := by
  match l with
  | [] => cases h
  | [c] => simp [charsStartWith] at h
  | [c, d] => simp [charsStartWith] at h
  | c1 :: c2 :: c3 :: rest =>
    simp only [charsStartWith, Bool.and_eq_true, beq_iff_eq] at h
    obtain ⟨h1, h2, h3, -⟩ := h
    subst h1
    subst h2
    subst h3
    rfl

theorem charsStartWith_slashes3 (x : List Char) :
    charsStartWith ('/' :: '/' :: '/' :: x) ['/', '/', '/'] = true := by
  simp [charsStartWith]

theorem splitCSS_sound : ∀ {l pre post : List Char}, splitCSS l = some (pre, post) →
    l = pre ++ ':' :: '/' :: '/' :: post := by
  intro l
  induction l with
  | nil => intro pre post h; cases h
  | cons c rest ih =>
    intro pre post h
    unfold splitCSS at h
    by_cases hc : (c == ':' && charsStartWith rest ['/', '/']) = true
    · rw [if_pos hc] at h
      cases h
      obtain ⟨h1, h2⟩ := Bool.and_eq_true _ _ |>.mp hc
      have hcolon : c = ':' := beq_iff_eq.mp h1
      subst hcolon
      have hrest := charsStartWith_two h2
      show ':' :: rest = [] ++ ':' :: '/' :: '/' :: rest.drop 2
      conv_lhs => rw [hrest]
      rfl
    · rw [if_neg hc] at h
      cases hs : splitCSS rest with
      | none => rw [hs] at h; cases h
      | some p =>
        rw [hs] at h
        cases h
        show c :: rest = (c :: p.1) ++ ':' :: '/' :: '/' :: p.2
        have hr := ih (show splitCSS rest = some (p.1, p.2) from by rw [hs])
        rw [List.cons_append, ← hr]

theorem splitCSS_none : ∀ {l : List Char}, splitCSS l = none →
    ∀ pre post : List Char, l ≠ pre ++ ':' :: '/' :: '/' :: post := by
  intro l
  induction l with
  | nil =>
    intro _ pre post heq
    simp at heq
  | cons c rest ih =>
    intro h pre post heq
    unfold splitCSS at h
    by_cases hc : (c == ':' && charsStartWith rest ['/', '/']) = true
    · rw [if_pos hc] at h
      cases h
    · rw [if_neg hc] at h
      cases pre with
      | nil =>
        simp only [List.nil_append] at heq
        cases heq
        exact hc (by simp [charsStartWith_slashes])
      | cons p0 pre' =>
        rw [List.cons_append] at heq
        injection heq with hc0 hrest'
        cases hs : splitCSS rest with
        | none => exact ih hs pre' post hrest'
        | some p => rw [hs] at h; cases h

theorem splitCSS_min : ∀ {l pre post : List Char}, splitCSS l = some (pre, post) →
    ∀ pre2 post2 : List Char, l = pre2 ++ ':' :: '/' :: '/' :: post2 → pre <+: pre2 := by
  intro l
  induction l with
  | nil => intro pre post h; cases h
  | cons c rest ih =>
    intro pre post h pre2 post2 heq
    unfold splitCSS at h
    by_cases hc : (c == ':' && charsStartWith rest ['/', '/']) = true
    · rw [if_pos hc] at h
      cases h
      exact List.nil_prefix
    · rw [if_neg hc] at h
      cases pre2 with
      | nil =>
        simp only [List.nil_append] at heq
        cases heq
        exact absurd (by simp [charsStartWith_slashes]) hc
      | cons p0 pre2' =>
        rw [List.cons_append] at heq
        injection heq with hc0 hrest'
        cases hs : splitCSS rest with
        | none => rw [hs] at h; cases h
        | some p =>
          rw [hs] at h
          cases h
          exact List.cons_prefix_cons.mpr
            ⟨hc0, ih (show splitCSS rest = some (p.1, p.2) from by rw [hs])
              pre2' post2 hrest'⟩

theorem splitCSS_of_append {sch rest : List Char} (h : ':' ∉ sch) :
    splitCSS (sch ++ ':' :: '/' :: '/' :: rest) = some (sch, rest) := by
  induction sch with
  | nil =>
    show splitCSS (':' :: '/' :: '/' :: rest) = some ([], rest)
    unfold splitCSS
    rw [if_pos (by simp [charsStartWith_slashes])]
    rfl
  | cons c sch' ih =>
    rw [List.mem_cons, not_or] at h
    obtain ⟨h1, h2⟩ := h
    show splitCSS (c :: (sch' ++ ':' :: '/' :: '/' :: rest)) = some (c :: sch', rest)
    unfold splitCSS
    have hc : (c == ':') = false := beq_eq_false_iff_ne.mpr (fun he => h1 he.symm)
    rw [if_neg (by simp [hc]), ih h2]

theorem splitAtChar_eq_some {t : Char} : ∀ {l a b : List Char},
    splitAtChar t l = (a, some b) → l = a ++ t :: b ∧ t ∉ a := by
  intro l
  induction l with
  | nil => intro a b h; injection h with h1 h2; cases h2
  | cons c rest ih =>
    intro a b h
    unfold splitAtChar at h
    by_cases hc : (c == t) = true
    · rw [if_pos hc] at h
      injection h with h1 h2
      injection h2 with h2
      subst h1
      subst h2
      exact ⟨by rw [beq_iff_eq.mp hc]; rfl, by simp⟩
    · rw [Bool.not_eq_true] at hc
      rcases hp : splitAtChar t rest with ⟨p1, p2⟩
      simp only [hc, Bool.false_eq_true, if_false, hp] at h
      injection h with h1 h2
      subst h1
      subst h2
      obtain ⟨hr, hna⟩ := ih hp
      refine ⟨by rw [List.cons_append, ← hr], ?_⟩
      rw [List.mem_cons, not_or]
      exact ⟨fun he => (beq_eq_false_iff_ne.mp hc) he.symm, hna⟩

theorem splitAtChar_eq_none {t : Char} : ∀ {l a : List Char},
    splitAtChar t l = (a, none) → l = a ∧ t ∉ a := by
  intro l
  induction l with
  | nil =>
    intro a h
    injection h with h1 h2
    subst h1
    exact ⟨rfl, by simp⟩
  | cons c rest ih =>
    intro a h
    unfold splitAtChar at h
    by_cases hc : (c == t) = true
    · rw [if_pos hc] at h
      injection h with h1 h2
      cases h2
    · rw [Bool.not_eq_true] at hc
      rcases hp : splitAtChar t rest with ⟨p1, p2⟩
      simp only [hc, Bool.false_eq_true, if_false, hp] at h
      injection h with h1 h2
      subst h1
      subst h2
      obtain ⟨hr, hna⟩ := ih hp
      refine ⟨by rw [hr], ?_⟩
      rw [List.mem_cons, not_or]
      exact ⟨fun he => (beq_eq_false_iff_ne.mp hc) he.symm, hna⟩

theorem takeUntilAny_reconstruct (stops : List Char) : ∀ l : List Char,
    l = (takeUntilAny stops l).1 ++ (takeUntilAny stops l).2 := by
  intro l
  induction l with
  | nil => rfl
  | cons c rest ih =>
    unfold takeUntilAny
    by_cases hc : stops.contains c = true
    · rw [if_pos hc]
      rfl
    · rw [Bool.not_eq_true] at hc
      simp only [hc, Bool.false_eq_true, if_false]
      show c :: rest = c :: ((takeUntilAny stops rest).1 ++ (takeUntilAny stops rest).2)
      rw [← ih]

theorem takeUntilAny_snd_shape (stops : List Char) : ∀ l : List Char,
    (takeUntilAny stops l).2 = [] ∨
      ∃ c t, (takeUntilAny stops l).2 = c :: t ∧ stops.contains c = true := by
  intro l
  induction l with
  | nil => exact Or.inl rfl
  | cons c rest ih =>
    unfold takeUntilAny
    by_cases hc : stops.contains c = true
    · rw [if_pos hc]
      exact Or.inr ⟨c, rest, rfl, hc⟩
    · rw [Bool.not_eq_true] at hc
      simp only [hc, Bool.false_eq_true, if_false]
      exact ih

theorem splitCSS_cons (c : Char) (rest : List Char) :
    splitCSS (c :: rest) =
      if c == ':' && charsStartWith rest ['/', '/'] then some ([], rest.drop 2)
      else match splitCSS rest with | some p => some (c :: p.1, p.2) | none => none := rfl

theorem two_of_decomp (x y : List Char) :
    ∃ a b r2, x ++ ':' :: '/' :: '/' :: y = a :: b :: r2 := by
  rcases x with _ | ⟨a, x1⟩
  · exact ⟨':', '/', '/' :: y, rfl⟩
  · rcases x1 with _ | ⟨b, x2⟩
    · exact ⟨a, ':', '/' :: '/' :: y, rfl⟩
    · exact ⟨a, b, x2 ++ ':' :: '/' :: '/' :: y, rfl⟩

theorem splitCSS_extend {t : List Char} : ∀ {l pre post : List Char},
    splitCSS l = some (pre, post) → splitCSS (l ++ t) = some (pre, post ++ t) := by
  intro l
  induction l with
  | nil => intro pre post h; cases h
  | cons c rest ih =>
    intro pre post h
    rw [splitCSS_cons] at h
    rw [show (c :: rest) ++ t = c :: (rest ++ t) from rfl, splitCSS_cons]
    by_cases hc : (c == ':' && charsStartWith rest ['/', '/']) = true
    · rw [if_pos hc] at h
      injection h with h
      injection h with h1 h2
      subst h1
      subst h2
      obtain ⟨hcc, hsw⟩ := Bool.and_eq_true _ _ |>.mp hc
      have hr := charsStartWith_two hsw
      have hc2 : (c == ':' && charsStartWith (rest ++ t) ['/', '/']) = true := by
        rw [hcc]
        conv_lhs => rw [hr]
        simp [charsStartWith]
      rw [if_pos hc2]
      have hdrop : (rest ++ t).drop 2 = rest.drop 2 ++ t := by
        conv_lhs => rw [hr]
        rfl
      rw [hdrop]
    · rw [if_neg hc] at h
      rcases hs : splitCSS rest with _ | p
      · rw [hs] at h; cases h
      · rw [hs] at h
        injection h with h
        injection h with h1 h2
        subst h1
        subst h2
        have hc2 : ¬(c == ':' && charsStartWith (rest ++ t) ['/', '/']) = true := by
          intro hcon
          obtain ⟨hcc, hsw⟩ := Bool.and_eq_true _ _ |>.mp hcon
          apply hc
          rw [hcc, Bool.true_and]
          obtain ⟨a, b, r2, hr2⟩ := two_of_decomp p.1 p.2
          have hrest : rest = a :: b :: r2 := (splitCSS_sound (by rw [hs])).trans hr2
          rw [hrest]
          rw [hrest, show (a :: b :: r2) ++ t = a :: b :: (r2 ++ t) from rfl] at hsw
          simp only [charsStartWith] at hsw ⊢
          simpa using hsw
        rw [if_neg hc2, ih hs]

theorem validSchemeChars_mem : ∀ {l : List Char}, validSchemeChars l = true →
    ∀ c ∈ l, (c.isAlphanum || c == '+' || c == '-' || c == '.') = true := by
  intro l hv c hc
  rcases l with _ | ⟨h0, rest⟩
  · cases hc
  · simp only [validSchemeChars, Bool.and_eq_true] at hv
    obtain ⟨h1, h2⟩ := hv
    rcases List.mem_cons.mp hc with he | he
    · subst he
      simp [Char.isAlphanum, h1]
    · have := List.all_eq_true.mp h2 c he
      simpa using this

theorem validSchemeChars_false_of_mem {c : Char} : ∀ {l : List Char}, c ∈ l →
    (c.isAlphanum || c == '+' || c == '-' || c == '.') = false →
    validSchemeChars l = false := by
  intro l hc hprop
  rcases l with _ | ⟨h0, rest⟩
  · cases hc
  · simp only [validSchemeChars]
    rcases List.mem_cons.mp hc with he | he
    · subst he
      have : c.isAlpha = false := by
        rcases hal : c.isAlpha with _ | _
        · rfl
        · exfalso
          have : c.isAlphanum = true := by simp [Char.isAlphanum, hal]
          simp [this] at hprop
      rw [this]
      rfl
    · have : rest.all (fun x => x.isAlphanum || x == '+' || x == '-' || x == '.') = false := by
        rcases hall : rest.all (fun x => x.isAlphanum || x == '+' || x == '-' || x == '.')
          with _ | _
        · rfl
        · exfalso
          have := List.all_eq_true.mp hall c he
          rw [show ((c.isAlphanum || c == '+' || c == '-' || c == '.') = true) ↔ False by
            rw [hprop]; simp] at this
          exact this
      rw [this, Bool.and_false]

theorem not_mem_of_valid {c : Char} {l : List Char} (hv : validSchemeChars l = true)
    (hprop : (c.isAlphanum || c == '+' || c == '-' || c == '.') = false) : c ∉ l := by
  intro hc
  have := validSchemeChars_mem hv c hc
  rw [hprop] at this
  cases this

theorem split_before_first {c : Char} : ∀ {zs xs ys ws : List Char},
    xs ++ c :: ys = zs ++ ws → c ∉ zs → ∃ r, xs = zs ++ r ∧ ws = r ++ c :: ys := by
  intro zs
  induction zs with
  | nil =>
    intro xs ys ws h _
    exact ⟨xs, rfl, h.symm⟩
  | cons z zs' ih =>
    intro xs ys ws h hc
    rw [List.mem_cons, not_or] at hc
    obtain ⟨h1, h2⟩ := hc
    rcases xs with _ | ⟨x, xs'⟩
    · rw [List.nil_append, List.cons_append] at h
      injection h with e1 e2
      exact absurd e1 h1
    · rw [List.cons_append, List.cons_append] at h
      injection h with e1 e2
      obtain ⟨r, hr1, hr2⟩ := ih e2 h2
      exact ⟨r, by rw [List.cons_append, hr1, e1], hr2⟩

theorem starts_css_after {r X Y : List Char} {c : Char} (hc1 : c ≠ ':') (hc2 : c ≠ '/')
    (h : (':' :: '/' :: '/' :: X : List Char) = r ++ c :: Y) :
    ∃ r', r = ':' :: '/' :: '/' :: r' ∧ X = r' ++ c :: Y := by
  rcases r with _ | ⟨a, r1⟩
  · rw [List.nil_append] at h
    injection h with e1 _
    exact absurd e1.symm hc1
  · rw [List.cons_append] at h
    injection h with e1 e2
    rcases r1 with _ | ⟨b, r2⟩
    · rw [List.nil_append] at e2
      injection e2 with e3 _
      exact absurd e3.symm hc2
    · rw [List.cons_append] at e2
      injection e2 with e3 e4
      rcases r2 with _ | ⟨d, r3⟩
      · rw [List.nil_append] at e4
        injection e4 with e5 _
        exact absurd e5.symm hc2
      · rw [List.cons_append] at e4
        injection e4 with e5 e6
        subst e1
        subst e3
        subst e5
        exact ⟨r3, rfl, e6⟩

theorem charsStartWith_two_eq (x y : Char) (A B : List Char) :
    charsStartWith (x :: y :: A) ['/', '/'] = charsStartWith (x :: y :: B) ['/', '/'] := by
  simp [charsStartWith]

theorem isEmpty_append_cons (a b : List Char) (c : Char) :
    (a ++ c :: b).isEmpty = false := by
  rcases a with _ | ⟨x, a'⟩ <;> rfl

theorem contains_eq_false_of_not_mem {c : Char} {l : List Char} (h : c ∉ l) :
    l.contains c = false := by
  rcases hc : l.contains c with _ | _
  · rfl
  · exact absurd (by simpa using hc) h

theorem not_mem_of_contains_eq_false {c : Char} {l : List Char}
    (h : l.contains c = false) : c ∉ l := by
  intro hm
  have h2 : l.contains c = true := by simpa using hm
  rw [h2] at h
  cases h

theorem splitOnChar_cons (t c : Char) (rest : List Char) :
    splitOnChar t (c :: rest) =
      if c == t then [] :: splitOnChar t rest
      else match splitOnChar t rest with
           | [] => [[c]]
           | seg :: segs => (c :: seg) :: segs := rfl

theorem splitOnChar_ne_nil (t : Char) : ∀ l : List Char, splitOnChar t l ≠ [] := by
  intro l
  induction l with
  | nil => exact fun h => nomatch h
  | cons c rest ih =>
    rw [splitOnChar_cons]
    by_cases hc : (c == t) = true
    · rw [if_pos hc]
      exact fun h => nomatch h
    · rw [Bool.not_eq_true] at hc
      simp only [hc, Bool.false_eq_true, if_false]
      rcases hs : splitOnChar t rest with _ | ⟨seg, segs⟩
      · exact fun h => nomatch h
      · exact fun h => nomatch h

theorem splitOnChar_mem_not_target (t : Char) : ∀ l seg : List Char,
    seg ∈ splitOnChar t l → t ∉ seg := by
  intro l
  induction l with
  | nil =>
    intro seg hseg
    rcases List.mem_cons.mp hseg with h | h
    · subst h; simp
    · cases h
  | cons c rest ih =>
    intro seg hseg
    rw [splitOnChar_cons] at hseg
    by_cases hc : (c == t) = true
    · rw [if_pos hc] at hseg
      rcases List.mem_cons.mp hseg with h | h
      · subst h; simp
      · exact ih seg h
    · rw [Bool.not_eq_true] at hc
      simp only [hc, Bool.false_eq_true, if_false] at hseg
      rcases hs : splitOnChar t rest with _ | ⟨seg0, segs⟩
      · exact absurd hs (splitOnChar_ne_nil t rest)
      · rw [hs] at hseg
        rcases List.mem_cons.mp hseg with h | h
        · subst h
          rw [List.mem_cons, not_or]
          refine ⟨fun he => (beq_eq_false_iff_ne.mp hc) he.symm, ?_⟩
          exact ih seg0 (hs ▸ List.mem_cons_self seg0 segs)
        · exact ih seg (hs ▸ List.mem_cons_of_mem seg0 h)

theorem splitOnChar_mem_subset (t : Char) : ∀ l seg : List Char,
    seg ∈ splitOnChar t l → ∀ c ∈ seg, c ∈ l := by
  intro l
  induction l with
  | nil =>
    intro seg hseg
    rcases List.mem_cons.mp hseg with h | h
    · subst h; simp
    · cases h
  | cons c0 rest ih =>
    intro seg hseg
    rw [splitOnChar_cons] at hseg
    by_cases hc : (c0 == t) = true
    · rw [if_pos hc] at hseg
      rcases List.mem_cons.mp hseg with h | h
      · subst h; simp
      · exact fun c hc2 => List.mem_cons_of_mem c0 (ih seg h c hc2)
    · rw [Bool.not_eq_true] at hc
      simp only [hc, Bool.false_eq_true, if_false] at hseg
      rcases hs : splitOnChar t rest with _ | ⟨seg0, segs⟩
      · exact absurd hs (splitOnChar_ne_nil t rest)
      · rw [hs] at hseg
        rcases List.mem_cons.mp hseg with h | h
        · subst h
          intro c hc2
          rcases List.mem_cons.mp hc2 with h2 | h2
          · exact h2 ▸ List.mem_cons_self c0 rest
          · exact List.mem_cons_of_mem c0
              (ih seg0 (hs ▸ List.mem_cons_self seg0 segs) c h2)
        · exact fun c hc2 => List.mem_cons_of_mem c0
            (ih seg (hs ▸ List.mem_cons_of_mem seg0 h) c hc2)

theorem splitOnChar_of_not_mem {t : Char} : ∀ {l : List Char}, t ∉ l →
    splitOnChar t l = [l] := by
  intro l
  induction l with
  | nil => intro _; rfl
  | cons c rest ih =>
    intro h
    rw [List.mem_cons, not_or] at h
    obtain ⟨h1, h2⟩ := h
    rw [splitOnChar_cons,
      if_neg (by simp [beq_eq_false_iff_ne.mpr (fun he => h1 he.symm)]), ih h2]

theorem splitOnChar_append {t : Char} : ∀ {a : List Char} (b : List Char), t ∉ a →
    splitOnChar t (a ++ t :: b) = a :: splitOnChar t b := by
  intro a
  induction a with
  | nil =>
    intro b _
    show splitOnChar t (t :: b) = [] :: splitOnChar t b
    rw [splitOnChar_cons, if_pos (by simp)]
  | cons c a' ih =>
    intro b h
    rw [List.mem_cons, not_or] at h
    obtain ⟨h1, h2⟩ := h
    show splitOnChar t (c :: (a' ++ t :: b)) = (c :: a') :: splitOnChar t b
    rw [splitOnChar_cons,
      if_neg (by simp [beq_eq_false_iff_ne.mpr (fun he => h1 he.symm)]), ih b h2]

theorem parseQueryPairs_mem {q : String} {k v : String}
    (h : (k, v) ∈ parseQueryPairs q) :
    (∀ c ∈ k.toList, c ∈ q.toList ∧ c ≠ '&' ∧ c ≠ '=' ∧ c ≠ ';') ∧
    (∀ c ∈ v.toList, c ∈ q.toList ∧ c ≠ '&' ∧ c ≠ ';') := by
  unfold parseQueryPairs at h
  obtain ⟨seg, hseg, hsome⟩ := List.mem_filterMap.mp h
  by_cases he : seg.isEmpty = true
  · rw [if_pos he] at hsome; cases hsome
  · rw [if_neg he] at hsome
    by_cases hsc : seg.contains ';' = true
    · rw [if_pos hsc] at hsome; cases hsome
    · rw [if_neg hsc] at hsome
      rw [Bool.not_eq_true] at hsc
      have hns : ';' ∉ seg := not_mem_of_contains_eq_false hsc
      have hna : '&' ∉ seg := splitOnChar_mem_not_target '&' q.toList seg hseg
      have hsub : ∀ c ∈ seg, c ∈ q.toList := splitOnChar_mem_subset '&' q.toList seg hseg
      simp only [Option.some.injEq, Prod.mk.injEq] at hsome
      obtain ⟨hk, hv⟩ := hsome
      constructor
      · intro c hc
        rw [← hk] at hc
        have hcseg : c ∈ seg := splitAtChar_fst_subset '=' seg c hc
        exact ⟨hsub c hcseg, fun he2 => hna (he2 ▸ hcseg),
          fun he2 => splitAtChar_fst_not_target '=' seg (he2 ▸ hc),
          fun he2 => hns (he2 ▸ hcseg)⟩
      · intro c hc
        rw [← hv] at hc
        rcases h2 : (splitAtChar '=' seg).2 with _ | v'
        · rw [h2] at hc
          cases hc
        · rw [h2] at hc
          have hcseg : c ∈ seg := splitAtChar_snd_subset '=' seg v' h2 c hc
          exact ⟨hsub c hcseg, fun he2 => hna (he2 ▸ hcseg), fun he2 => hns (he2 ▸ hcseg)⟩

theorem parse_join : ∀ ps : List (String × String),
    (∀ p ∈ ps, '&' ∉ p.1.toList ∧ '=' ∉ p.1.toList ∧ ';' ∉ p.1.toList ∧
      '&' ∉ p.2.toList ∧ ';' ∉ p.2.toList) →
    parseQueryPairs ⟨joinPairsChars ps⟩ = ps := by
  intro ps
  induction ps with
  | nil => intro _; rfl
  | cons p rest ih =>
    intro hwf
    obtain ⟨h1, h2, h3, h4, h5⟩ := hwf p (List.mem_cons_self p rest)
    have hseg_amp : '&' ∉ p.1.toList ++ '=' :: p.2.toList := by
      intro hm
      rcases List.mem_append.mp hm with hm1 | hm2
      · exact h1 hm1
      · rcases List.mem_cons.mp hm2 with hm3 | hm4
        · exact absurd hm3 (by decide)
        · exact h4 hm4
    have hseg_semi : ';' ∉ p.1.toList ++ '=' :: p.2.toList := by
      intro hm
      rcases List.mem_append.mp hm with hm1 | hm2
      · exact h3 hm1
      · rcases List.mem_cons.mp hm2 with hm3 | hm4
        · exact absurd hm3 (by decide)
        · exact h5 hm4
    have hcontains : (p.1.toList ++ '=' :: p.2.toList).contains ';' = false :=
      contains_eq_false_of_not_mem hseg_semi
    have hisEmpty := isEmpty_append_cons p.1.toList p.2.toList '='
    have hsplit : splitAtChar '=' (p.1.toList ++ '=' :: p.2.toList)
        = (p.1.toList, some p.2.toList) := splitAtChar_append h2
    rcases rest with _ | ⟨p2, rest'⟩
    · show parseQueryPairs ⟨p.1.toList ++ '=' :: p.2.toList⟩ = [p]
      unfold parseQueryPairs
      rw [show (⟨p.1.toList ++ '=' :: p.2.toList⟩ : String).toList
            = p.1.toList ++ '=' :: p.2.toList from rfl,
        splitOnChar_of_not_mem hseg_amp]
      simp only [List.filterMap_cons, List.filterMap_nil, hisEmpty, Bool.false_eq_true,
        if_false, hcontains, hsplit]
      rfl
    · show parseQueryPairs
        ⟨(p.1.toList ++ '=' :: p.2.toList) ++ '&' :: joinPairsChars (p2 :: rest')⟩
          = p :: p2 :: rest'
      unfold parseQueryPairs
      rw [show (⟨(p.1.toList ++ '=' :: p.2.toList) ++ '&' :: joinPairsChars (p2 :: rest')⟩
            : String).toList
          = (p.1.toList ++ '=' :: p.2.toList) ++ '&' :: joinPairsChars (p2 :: rest') from rfl,
        splitOnChar_append (joinPairsChars (p2 :: rest')) hseg_amp]
      have hih := ih (fun p' hp' => hwf p' (List.mem_cons_of_mem p hp'))
      unfold parseQueryPairs at hih
      rw [show (⟨joinPairsChars (p2 :: rest')⟩ : String).toList
            = joinPairsChars (p2 :: rest') from rfl] at hih
      simp only [List.filterMap_cons, hisEmpty, Bool.false_eq_true, if_false,
        hcontains, hsplit, hih]
      rfl

theorem joinPairs_mem : ∀ (ps : List (String × String)) (c : Char),
    c ∈ joinPairsChars ps →
    c = '=' ∨ c = '&' ∨ ∃ p, p ∈ ps ∧ (c ∈ p.1.toList ∨ c ∈ p.2.toList) := by
  intro ps
  induction ps with
  | nil => intro c h; cases h
  | cons p rest ih =>
    intro c h
    rcases rest with _ | ⟨p2, rest'⟩
    · rw [show joinPairsChars [p] = p.1.toList ++ '=' :: p.2.toList from rfl] at h
      rcases List.mem_append.mp h with h1 | h2
      · exact Or.inr (Or.inr ⟨p, List.mem_cons_self p [], Or.inl h1⟩)
      · rcases List.mem_cons.mp h2 with h3 | h4
        · exact Or.inl h3
        · exact Or.inr (Or.inr ⟨p, List.mem_cons_self p [], Or.inr h4⟩)
    · rw [show joinPairsChars (p :: p2 :: rest')
          = (p.1.toList ++ '=' :: p.2.toList) ++ '&' :: joinPairsChars (p2 :: rest')
          from rfl] at h
      rcases List.mem_append.mp h with h1 | h2
      · rcases List.mem_append.mp h1 with h5 | h6
        · exact Or.inr (Or.inr ⟨p, List.mem_cons_self p (p2 :: rest'), Or.inl h5⟩)
        · rcases List.mem_cons.mp h6 with h3 | h4
          · exact Or.inl h3
          · exact Or.inr (Or.inr ⟨p, List.mem_cons_self p (p2 :: rest'), Or.inr h4⟩)
      · rcases List.mem_cons.mp h2 with h7 | h8
        · exact Or.inr (Or.inl h7)
        · rcases ih c h8 with h9 | h9 | ⟨pp, hpp, hcc⟩
          · exact Or.inl h9
          · exact Or.inr (Or.inl h9)
          · exact Or.inr (Or.inr ⟨pp, List.mem_cons_of_mem p hpp, hcc⟩)

theorem sortByKey_perm (l : List (String × String)) : List.Perm (sortByKey l) l :=
  List.perm_insertionSort pairKeyLE l

theorem sortByKey_idem (l : List (String × String)) :
    sortByKey (sortByKey l) = sortByKey l :=
  List.Sorted.insertionSort_eq (List.sorted_insertionSort pairKeyLE l)

theorem sortedQueryPairs_wf (q : String) :
    ∀ p ∈ sortByKey ((parseQueryPairs q).filter (fun p => !isTrackingParam p.1)),
      '&' ∉ p.1.toList ∧ '=' ∉ p.1.toList ∧ ';' ∉ p.1.toList ∧
      '&' ∉ p.2.toList ∧ ';' ∉ p.2.toList := by
  intro p hp
  have hpF : p ∈ (parseQueryPairs q).filter (fun p => !isTrackingParam p.1) :=
    (List.Perm.mem_iff (sortByKey_perm _)).mp hp
  have hpq : p ∈ parseQueryPairs q := List.mem_of_mem_filter hpF
  obtain ⟨hk, hv⟩ := parseQueryPairs_mem hpq
  exact ⟨fun hm => (hk _ hm).2.1 rfl, fun hm => (hk _ hm).2.2.1 rfl,
    fun hm => (hk _ hm).2.2.2 rfl, fun hm => (hv _ hm).2.1 rfl, fun hm => (hv _ hm).2.2 rfl⟩

theorem requery_stable (q : String) :
    encodeQueryChars ((parseQueryPairs
        ⟨encodeQueryChars ((parseQueryPairs q).filter (fun p => !isTrackingParam p.1))⟩).filter
        (fun p => !isTrackingParam p.1))
      = encodeQueryChars ((parseQueryPairs q).filter (fun p => !isTrackingParam p.1)) := by
  have hwf := sortedQueryPairs_wf q
  show encodeQueryChars ((parseQueryPairs
      ⟨joinPairsChars (sortByKey ((parseQueryPairs q).filter
        (fun p => !isTrackingParam p.1)))⟩).filter (fun p => !isTrackingParam p.1))
    = _
  rw [parse_join _ hwf]
  have hfilter : (sortByKey ((parseQueryPairs q).filter
      (fun p => !isTrackingParam p.1))).filter (fun p => !isTrackingParam p.1)
      = sortByKey ((parseQueryPairs q).filter (fun p => !isTrackingParam p.1)) := by
    apply List.filter_eq_self.mpr
    intro p hp
    have hmem : p ∈ (parseQueryPairs q).filter (fun r => !isTrackingParam r.1) :=
      (List.Perm.mem_iff (sortByKey_perm _)).mp hp
    have hval := List.of_mem_filter hmem
    exact hval
  rw [hfilter]
  show joinPairsChars (sortByKey (sortByKey _)) = joinPairsChars (sortByKey _)
  rw [sortByKey_idem]

theorem encQ_chars (q : String) (c : Char)
    (hc : c ∈ encodeQueryChars ((parseQueryPairs q).filter (fun p => !isTrackingParam p.1))) :
    c = '=' ∨ c = '&' ∨ c ∈ q.toList := by
  rcases joinPairs_mem (sortByKey ((parseQueryPairs q).filter
      (fun p => !isTrackingParam p.1))) c hc with h | h | ⟨p, hp, hcc⟩
  · exact Or.inl h
  · exact Or.inr (Or.inl h)
  · have hpq : p ∈ parseQueryPairs q :=
      List.mem_of_mem_filter ((List.Perm.mem_iff (sortByKey_perm _)).mp hp)
    obtain ⟨hk, hv⟩ := parseQueryPairs_mem hpq
    rcases hcc with h1 | h2
    · exact Or.inr (Or.inr (hk c h1).1)
    · exact Or.inr (Or.inr (hv c h2).1)

theorem parseAuthority_of_shape (sch frag : String) (host path : List Char)
    (qp : Option (List Char))
    (hhost : ∀ c ∈ host, (['/', '?'] : List Char).contains c = false)
    (hpathq : '?' ∉ path)
    (hshape : path = [] ∨ ∃ t, path = '/' :: t) :
    parseAuthority sch (host ++ (path ++ qpart qp)) frag
      = { scheme := sch, host := ⟨host⟩, path := ⟨path⟩,
          rawQuery := qstr qp, fragment := frag } := by
  rcases qp with _ | q
  · show parseAuthority sch (host ++ (path ++ [])) frag
      = { scheme := sch, host := ⟨host⟩, path := ⟨path⟩, rawQuery := "", fragment := frag }
    rw [List.append_nil]
    rcases hshape with hp0 | ⟨t, hp1⟩
    · subst hp0
      rw [List.append_nil]
      unfold parseAuthority
      dsimp only
      rw [takeUntilAny_all hhost]
      rfl
    · subst hp1
      unfold parseAuthority
      dsimp only
      rw [takeUntilAny_append hhost (by decide)]
      dsimp only
      rw [splitAtChar_not_mem hpathq]
  · show parseAuthority sch (host ++ (path ++ '?' :: q)) frag
      = { scheme := sch, host := ⟨host⟩, path := ⟨path⟩, rawQuery := ⟨q⟩, fragment := frag }
    rcases hshape with hp0 | ⟨t, hp1⟩
    · subst hp0
      rw [List.nil_append]
      unfold parseAuthority
      dsimp only
      rw [takeUntilAny_append hhost (by decide)]
      rfl
    · subst hp1
      unfold parseAuthority
      dsimp only
      rw [show ('/' :: t) ++ '?' :: q = '/' :: (t ++ '?' :: q) from rfl,
        takeUntilAny_append hhost (by decide)]
      dsimp only
      rw [show '/' :: (t ++ '?' :: q) = ('/' :: t) ++ '?' :: q from rfl,
        splitAtChar_append hpathq]

theorem not_hash_qpart {qp : Option (List Char)}
    (hqh : ∀ q, qp = some q → '#' ∉ q) : '#' ∉ qpart qp := by
  rcases qp with _ | q
  · simp [qpart]
  · show '#' ∉ '?' :: q
    rw [List.mem_cons, not_or]
    exact ⟨by decide, hqh q rfl⟩

theorem parseURL_auth (sch host path : List Char) (qp : Option (List Char))
    (hv : validSchemeChars sch = true)
    (hhost : ∀ c ∈ host, (['/', '?'] : List Char).contains c = false ∧ c ≠ '#')
    (hpathq : '?' ∉ path) (hpathh : '#' ∉ path)
    (hshape : path = [] ∨ ∃ t, path = '/' :: t)
    (hqh : ∀ q, qp = some q → '#' ∉ q) :
    parseURL ⟨sch ++ ':' :: '/' :: '/' :: (host ++ (path ++ qpart qp))⟩
      = { scheme := ⟨sch⟩, host := ⟨host⟩, path := ⟨path⟩,
          rawQuery := qstr qp, fragment := "" } := by
  have hq' : '#' ∉ qpart qp := not_hash_qpart hqh
  have hnohash : '#' ∉ sch ++ ':' :: '/' :: '/' :: (host ++ (path ++ qpart qp)) := by
    intro hm
    rcases List.mem_append.mp hm with h1 | h2
    · exact absurd ((by decide :
        (('#'.isAlphanum || '#' == '+' || '#' == '-' || '#' == '.') = false)))
        (by rw [validSchemeChars_mem hv '#' h1]; exact fun hcon => nomatch hcon)
    · rcases List.mem_cons.mp h2 with h3 | h4
      · exact absurd h3 (by decide)
      · rcases List.mem_cons.mp h4 with h5 | h6
        · exact absurd h5 (by decide)
        · rcases List.mem_cons.mp h6 with h7 | h8
          · exact absurd h7 (by decide)
          · rcases List.mem_append.mp h8 with h9 | h10
            · exact (hhost '#' h9).2 rfl
            · rcases List.mem_append.mp h10 with h11 | h12
              · exact hpathh h11
              · exact hq' h12
  have hcolon : ':' ∉ sch := not_mem_of_valid hv (by decide)
  unfold parseURL
  dsimp only [String.toList]
  rw [splitAtChar_not_mem hnohash]
  dsimp only
  rw [splitCSS_of_append hcolon]
  dsimp only
  rw [if_pos hv]
  exact parseAuthority_of_shape ⟨sch⟩ "" host path qp (fun c hc => (hhost c hc).1)
    hpathq hshape

theorem parseNoScheme_slashes (hc0 : Char) (hr path : List Char) (qp : Option (List Char))
    (hhost : ∀ c ∈ hc0 :: hr, (['/', '?'] : List Char).contains c = false)
    (hpathq : '?' ∉ path)
    (hshape : path = [] ∨ ∃ t, path = '/' :: t) :
    parseNoScheme ('/' :: '/' :: ((hc0 :: hr) ++ (path ++ qpart qp))) ""
      = { scheme := "", host := ⟨hc0 :: hr⟩, path := ⟨path⟩,
          rawQuery := qstr qp, fragment := "" } := by
  have hne : hc0 ≠ '/' := by
    intro he
    have hcf := hhost hc0 (List.mem_cons_self hc0 hr)
    rw [he] at hcf
    exact absurd hcf (by decide)
  have hcond : (!charsStartWith ('/' :: '/' :: ((hc0 :: hr) ++ (path ++ qpart qp)))
        ['/', '/', '/'] &&
      charsStartWith ('/' :: '/' :: ((hc0 :: hr) ++ (path ++ qpart qp))) ['/', '/'])
      = true := by
    have h3 : charsStartWith ('/' :: '/' :: ((hc0 :: hr) ++ (path ++ qpart qp)))
        ['/', '/', '/'] = false := by
      show charsStartWith ('/' :: '/' :: hc0 :: (hr ++ (path ++ qpart qp)))
        ['/', '/', '/'] = false
      simp [charsStartWith, beq_eq_false_iff_ne.mpr hne]
    rw [h3, charsStartWith_slashes]
    rfl
  unfold parseNoScheme
  rw [if_pos hcond]
  exact parseAuthority_of_shape "" "" (hc0 :: hr) path qp hhost hpathq hshape

theorem parseURL_hostonly (hc0 : Char) (hr path : List Char) (qp : Option (List Char))
    (hhost : ∀ c ∈ hc0 :: hr, (['/', '?'] : List Char).contains c = false ∧ c ≠ '#')
    (hpathq : '?' ∉ path) (hpathh : '#' ∉ path)
    (hshape : path = [] ∨ ∃ t, path = '/' :: t)
    (hqh : ∀ q, qp = some q → '#' ∉ q) :
    parseURL ⟨'/' :: '/' :: ((hc0 :: hr) ++ (path ++ qpart qp))⟩
      = { scheme := "", host := ⟨hc0 :: hr⟩, path := ⟨path⟩,
          rawQuery := qstr qp, fragment := "" } := by
  have hq' : '#' ∉ qpart qp := not_hash_qpart hqh
  have hnohash : '#' ∉ '/' :: '/' :: ((hc0 :: hr) ++ (path ++ qpart qp)) := by
    intro hm
    rcases List.mem_cons.mp hm with h1 | h2
    · exact absurd h1 (by decide)
    · rcases List.mem_cons.mp h2 with h3 | h4
      · exact absurd h3 (by decide)
      · rcases List.mem_append.mp h4 with h5 | h6
        · exact (hhost '#' h5).2 rfl
        · rcases List.mem_append.mp h6 with h7 | h8
          · exact hpathh h7
          · exact hq' h8
  unfold parseURL
  dsimp only [String.toList]
  rw [splitAtChar_not_mem hnohash]
  dsimp only
  rcases hcss : splitCSS ('/' :: '/' :: ((hc0 :: hr) ++ (path ++ qpart qp))) with _ | p
  · exact parseNoScheme_slashes hc0 hr path qp (fun c hc => (hhost c hc).1) hpathq hshape
  · dsimp only
    have hsound := splitCSS_sound (by rw [hcss])
    have hinv : validSchemeChars p.1 = false := by
      rcases hp1 : p.1 with _ | ⟨c0, pr⟩
      · rw [hp1, List.nil_append] at hsound
        injection hsound with e1 _
        exact absurd e1 (by decide)
      · rw [hp1, List.cons_append] at hsound
        injection hsound with e1 _
        have hm : '/' ∈ c0 :: pr := by
          rw [← e1]
          exact List.mem_cons_self '/' pr
        exact validSchemeChars_false_of_mem hm (by decide)
    rw [if_neg (by rw [hinv]; exact fun hcon => nomatch hcon)]
    exact parseNoScheme_slashes hc0 hr path qp (fun c hc => (hhost c hc).1) hpathq hshape

theorem parseURL_pathonly (path : List Char) (qp : Option (List Char))
    (hpathq : '?' ∉ path) (hpathh : '#' ∉ path)
    (hqh : ∀ q, qp = some q → '#' ∉ q)
    (hss : (!charsStartWith (path ++ qpart qp) ['/', '/', '/'] &&
      charsStartWith (path ++ qpart qp) ['/', '/']) = false)
    (hcss : ∀ pre post, splitCSS (path ++ qpart qp) = some (pre, post) →
      validSchemeChars pre = false) :
    parseURL ⟨path ++ qpart qp⟩
      = { scheme := "", host := "", path := ⟨path⟩,
          rawQuery := qstr qp, fragment := "" } := by
  have hq' : '#' ∉ qpart qp := not_hash_qpart hqh
  have hnohash : '#' ∉ path ++ qpart qp := by
    intro hm
    rcases List.mem_append.mp hm with h1 | h2
    · exact hpathh h1
    · exact hq' h2
  have hnsq : parseNoScheme (path ++ qpart qp) ""
      = { scheme := "", host := "", path := ⟨path⟩,
          rawQuery := qstr qp, fragment := "" } := by
    unfold parseNoScheme
    rw [if_neg (by rw [hss]; exact fun hcon => nomatch hcon)]
    dsimp only
    rcases qp with _ | q
    · rw [show qpart none = ([] : List Char) from rfl, List.append_nil,
        splitAtChar_not_mem hpathq]
      rfl
    · rw [show qpart (some q) = '?' :: q from rfl, splitAtChar_append hpathq]
      rfl
  unfold parseURL
  dsimp only [String.toList]
  rw [splitAtChar_not_mem hnohash]
  dsimp only
  rcases hc : splitCSS (path ++ qpart qp) with _ | p
  · exact hnsq
  · dsimp only
    rw [if_neg (by rw [hcss p.1 p.2 (by rw [hc])]; exact fun hcon => nomatch hcon)]
    exact hnsq

theorem strMk_cons_bne (c : Char) (cs : List Char) : ((⟨c :: cs⟩ : String) != "") = true := by
  rw [bne_iff_ne]
  intro h
  exact List.cons_ne_nil c cs (congrArg String.toList h)

theorem hns_case3 {fp1 tail : List Char} (path : List Char) (qp : Option (List Char))
    (hre : fp1 = path ++ tail)
    (htail : tail = [] ∨ ∃ e, tail = '?' :: e)
    (hss : (!charsStartWith fp1 ['/', '/', '/'] &&
      charsStartWith fp1 ['/', '/']) = false) :
    (!charsStartWith (path ++ qpart qp) ['/', '/', '/'] &&
      charsStartWith (path ++ qpart qp) ['/', '/']) = false := by
  have key : charsStartWith fp1 ['/', '/'] = false ∨
      charsStartWith fp1 ['/', '/', '/'] = true := by
    rcases hA : charsStartWith fp1 ['/', '/', '/'] with _ | _
    · rcases hB : charsStartWith fp1 ['/', '/'] with _ | _
      · exact Or.inl rfl
      · rw [hA, hB] at hss
        cases hss
    · exact Or.inr rfl
  rcases key with h2 | h3
  · -- the input does not even start with `//`: neither does the reprint
    have h2' : charsStartWith (path ++ qpart qp) ['/', '/'] = false := by
      rcases path with _ | ⟨x, path1⟩
      · rcases qp with _ | q
        · rfl
        · show charsStartWith ('?' :: q) ['/', '/'] = false
          simp [charsStartWith]
      · rcases path1 with _ | ⟨y, path2⟩
        · rcases qp with _ | q
          · show charsStartWith [x] ['/', '/'] = false
            simp [charsStartWith]
          · show charsStartWith (x :: '?' :: q) ['/', '/'] = false
            simp [charsStartWith]
        · rw [show (x :: y :: path2) ++ qpart qp = x :: y :: (path2 ++ qpart qp) from rfl,
            charsStartWith_two_eq x y (path2 ++ qpart qp) (path2 ++ tail)]
          rw [hre, show (x :: y :: path2) ++ tail = x :: y :: (path2 ++ tail) from rfl]
            at h2
          exact h2
    rw [h2', Bool.and_false]
  · -- the input starts with `///`: so does the path, and the reprint
    have hfp := charsStartWith_three h3
    rw [hre] at hfp
    rcases path with _ | ⟨x, p1⟩
    · rcases qp with _ | e
      · decide
      · show (!charsStartWith ('?' :: e) ['/', '/', '/'] &&
          charsStartWith ('?' :: e) ['/', '/']) = false
        simp [charsStartWith]
    · rcases p1 with _ | ⟨y, p2⟩
      · rcases qp with _ | e
        · show (!charsStartWith [x] ['/', '/', '/'] &&
            charsStartWith [x] ['/', '/']) = false
          simp [charsStartWith]
        · show (!charsStartWith (x :: '?' :: e) ['/', '/', '/'] &&
            charsStartWith (x :: '?' :: e) ['/', '/']) = false
          simp [charsStartWith]
      · rcases p2 with _ | ⟨z, p3⟩
        · rw [show ([x, y] : List Char) ++ tail = x :: y :: tail from rfl] at hfp
          injection hfp with e1 hfp
          injection hfp with e2 hfp
          rcases htail with ht | ⟨e, ht⟩
          · rw [ht] at hfp
            cases hfp
          · rw [ht] at hfp
            injection hfp with e3 _
            exact absurd e3 (by decide)
        · rw [show (x :: y :: z :: p3) ++ tail = x :: y :: z :: (p3 ++ tail) from rfl]
            at hfp
          injection hfp with e1 hfp
          injection hfp with e2 hfp
          injection hfp with e3 _
          subst e1
          subst e2
          subst e3
          show (!charsStartWith ('/' :: '/' :: '/' :: (p3 ++ qpart qp)) ['/', '/', '/'] &&
            charsStartWith ('/' :: '/' :: '/' :: (p3 ++ qpart qp)) ['/', '/']) = false
          rw [charsStartWith_slashes3]
          rfl

theorem hcss_case3 {fp1 tail : List Char} (path : List Char) (qp : Option (List Char))
    (hre : fp1 = path ++ tail)
    (horig : splitCSS fp1 = none ∨
      ∃ p₀ : List Char × List Char, splitCSS fp1 = some p₀ ∧ validSchemeChars p₀.1 = false) :
    ∀ pre post, splitCSS (path ++ qpart qp) = some (pre, post) →
      validSchemeChars pre = false := by
  intro pre post hsp
  by_cases hqpre : '?' ∈ pre
  · exact validSchemeChars_false_of_mem hqpre (by decide)
  · have hdec : ∃ r', path = pre ++ ':' :: '/' :: '/' :: r' := by
      have hsound := splitCSS_sound hsp
      rcases qp with _ | e
      · rw [show qpart none = ([] : List Char) from rfl, List.append_nil] at hsound
        exact ⟨post, hsound⟩
      · rw [show qpart (some e) = '?' :: e from rfl] at hsound
        obtain ⟨r, hr1, hr2⟩ := split_before_first hsound hqpre
        obtain ⟨r', hr3, -⟩ := starts_css_after (by decide) (by decide) hr2
        exact ⟨r', by rw [hr1, hr3]⟩
    obtain ⟨r', hpath⟩ := hdec
    rcases hsc : splitCSS path with _ | pr
    · exact absurd hpath (splitCSS_none hsc pre r')
    · have hext : splitCSS (path ++ qpart qp) = some (pr.1, pr.2 ++ qpart qp) :=
        splitCSS_extend (by rw [hsc])
      rw [hsp] at hext
      injection hext with hext
      have he1 : pre = pr.1 := congrArg Prod.fst hext
      have hext2 : splitCSS fp1 = some (pr.1, pr.2 ++ tail) := by
        rw [hre]
        exact splitCSS_extend (by rw [hsc])
      rcases horig with h0 | ⟨p₀, hp₀, hinv⟩
      · rw [h0] at hext2; cases hext2
      · rw [hp₀] at hext2
        injection hext2 with hext2
        have hfst : p₀.1 = pr.1 := by rw [hext2]
        rw [he1, ← hfst]
        exact hinv

theorem hcss_slashhead (path : List Char) (qp : Option (List Char))
    (hshape : path = [] ∨ ∃ t, path = '/' :: t) :
    ∀ pre post, splitCSS (path ++ qpart qp) = some (pre, post) →
      validSchemeChars pre = false := by
  intro pre post hsp
  have hsound := splitCSS_sound hsp
  rcases hshape with h0 | ⟨t, h1⟩
  · subst h0
    rw [List.nil_append] at hsound
    rcases qp with _ | e
    · rcases pre with _ | ⟨a, pr⟩
      · exact nomatch hsound
      · exact nomatch hsound
    · rw [show qpart (some e) = '?' :: e from rfl] at hsound
      rcases pre with _ | ⟨a, pr⟩
      · rw [List.nil_append] at hsound
        injection hsound with e1 _
        exact absurd e1 (by decide)
      · rw [List.cons_append] at hsound
        injection hsound with e1 _
        have hm : '?' ∈ a :: pr := by
          rw [← e1]
          exact List.mem_cons_self '?' pr
        exact validSchemeChars_false_of_mem hm (by decide)
  · subst h1
    rw [List.cons_append] at hsound
    rcases pre with _ | ⟨a, pr⟩
    · rw [List.nil_append] at hsound
      injection hsound with e1 _
      exact absurd e1 (by decide)
    · rw [List.cons_append] at hsound
      injection hsound with e1 _
      have hm : '/' ∈ a :: pr := by
        rw [← e1]
        exact List.mem_cons_self '/' pr
      exact validSchemeChars_false_of_mem hm (by decide)

theorem no_hash_encQ {qS : String} (hqS : '#' ∉ qS.toList) :
    '#' ∉ encodeQueryChars ((parseQueryPairs qS).filter (fun p => !isTrackingParam p.1)) := by
  intro hm
  rcases encQ_chars qS '#' hm with h | h | h
  · exact absurd h (by decide)
  · exact absurd h (by decide)
  · exact hqS h

theorem canonical_output_auth (schL hostL pathL : List Char) (qS : String)
    (hv : validSchemeChars schL = true)
    (hhost : ∀ c ∈ hostL, (['/', '?'] : List Char).contains c = false ∧ c ≠ '#')
    (hpathq : '?' ∉ pathL) (hpathh : '#' ∉ pathL)
    (hshape : pathL = [] ∨ ∃ t, pathL = '/' :: t)
    (hqS : '#' ∉ qS.toList) :
    parseURL (encodeURL
        { scheme := ⟨schL⟩, host := ⟨hostL⟩, path := ⟨pathL⟩,
          rawQuery := ⟨encodeQueryChars ((parseQueryPairs qS).filter
            (fun p => !isTrackingParam p.1))⟩,
          fragment := "" })
      = { scheme := ⟨schL⟩, host := ⟨hostL⟩, path := ⟨pathL⟩,
          rawQuery := ⟨encodeQueryChars ((parseQueryPairs qS).filter
            (fun p => !isTrackingParam p.1))⟩,
          fragment := "" } := by
  have hq2 := no_hash_encQ hqS
  rcases schL with _ | ⟨sc, schR⟩
  · exact nomatch hv
  · rcases hqe : encodeQueryChars ((parseQueryPairs qS).filter
        (fun p => !isTrackingParam p.1)) with _ | ⟨qc, qr⟩
    · have henc : encodeURL
          { scheme := ⟨sc :: schR⟩, host := ⟨hostL⟩, path := ⟨pathL⟩,
            rawQuery := ⟨([] : List Char)⟩, fragment := "" }
          = ⟨(sc :: schR) ++ ':' :: '/' :: '/' :: (hostL ++ (pathL ++ qpart none))⟩ := by
        unfold encodeURL
        dsimp only [String.toList]
        rw [if_neg (show ¬(((⟨([] : List Char)⟩ : String) != "") = true) from by decide),
          if_neg (show ¬((("" : String) != "") = true) from by decide),
          if_pos (strMk_cons_bne sc schR)]
        apply congrArg
        simp [qpart, List.append_assoc]
      rw [henc, parseURL_auth (sc :: schR) hostL pathL none hv hhost hpathq hpathh hshape
        (fun q hq => nomatch hq)]
      rfl
    · have hq3 : '#' ∉ qc :: qr := hqe ▸ hq2
      have henc : encodeURL
          { scheme := ⟨sc :: schR⟩, host := ⟨hostL⟩, path := ⟨pathL⟩,
            rawQuery := ⟨qc :: qr⟩, fragment := "" }
          = ⟨(sc :: schR) ++ ':' :: '/' :: '/' ::
              (hostL ++ (pathL ++ qpart (some (qc :: qr))))⟩ := by
        unfold encodeURL
        dsimp only [String.toList]
        rw [if_pos (strMk_cons_bne qc qr),
          if_neg (show ¬((("" : String) != "") = true) from by decide),
          if_pos (strMk_cons_bne sc schR)]
        apply congrArg
        simp [qpart, List.append_assoc]
      rw [henc, parseURL_auth (sc :: schR) hostL pathL (some (qc :: qr)) hv hhost hpathq
        hpathh hshape (fun q hq => by injection hq with hq; exact hq ▸ hq3)]
      rfl

theorem canonical_output_hostonly (hc : Char) (hr pathL : List Char) (qS : String)
    (hhost : ∀ c ∈ hc :: hr, (['/', '?'] : List Char).contains c = false ∧ c ≠ '#')
    (hpathq : '?' ∉ pathL) (hpathh : '#' ∉ pathL)
    (hshape : pathL = [] ∨ ∃ t, pathL = '/' :: t)
    (hqS : '#' ∉ qS.toList) :
    parseURL (encodeURL
        { scheme := "", host := ⟨hc :: hr⟩, path := ⟨pathL⟩,
          rawQuery := ⟨encodeQueryChars ((parseQueryPairs qS).filter
            (fun p => !isTrackingParam p.1))⟩,
          fragment := "" })
      = { scheme := "", host := ⟨hc :: hr⟩, path := ⟨pathL⟩,
          rawQuery := ⟨encodeQueryChars ((parseQueryPairs qS).filter
            (fun p => !isTrackingParam p.1))⟩,
          fragment := "" } := by
  have hq2 := no_hash_encQ hqS
  rcases hqe : encodeQueryChars ((parseQueryPairs qS).filter
      (fun p => !isTrackingParam p.1)) with _ | ⟨qc, qr⟩
  · have henc : encodeURL
        { scheme := "", host := ⟨hc :: hr⟩, path := ⟨pathL⟩,
          rawQuery := ⟨([] : List Char)⟩, fragment := "" }
        = ⟨'/' :: '/' :: ((hc :: hr) ++ (pathL ++ qpart none))⟩ := by
      unfold encodeURL
      dsimp only [String.toList]
      rw [if_neg (show ¬(((⟨([] : List Char)⟩ : String) != "") = true) from by decide),
        if_neg (show ¬((("" : String) != "") = true) from by decide),
        if_pos (strMk_cons_bne hc hr)]
      apply congrArg
      simp [qpart, List.append_assoc]
    rw [henc, parseURL_hostonly hc hr pathL none hhost hpathq hpathh hshape
      (fun q hq => nomatch hq)]
    rfl
  · have hq3 : '#' ∉ qc :: qr := hqe ▸ hq2
    have henc : encodeURL
        { scheme := "", host := ⟨hc :: hr⟩, path := ⟨pathL⟩,
          rawQuery := ⟨qc :: qr⟩, fragment := "" }
        = ⟨'/' :: '/' :: ((hc :: hr) ++ (pathL ++ qpart (some (qc :: qr))))⟩ := by
      unfold encodeURL
      dsimp only [String.toList]
      rw [if_pos (strMk_cons_bne qc qr),
        if_neg (show ¬((("" : String) != "") = true) from by decide),
        if_pos (strMk_cons_bne hc hr)]
      apply congrArg
      simp [qpart, List.append_assoc]
    rw [henc, parseURL_hostonly hc hr pathL (some (qc :: qr)) hhost hpathq hpathh
      hshape (fun q hq => by injection hq with hq; exact hq ▸ hq3)]
    rfl

theorem canonical_output_pathonly (pathL : List Char) (qS : String)
    (hpathq : '?' ∉ pathL) (hpathh : '#' ∉ pathL)
    (hqS : '#' ∉ qS.toList)
    (hssH : ∀ qp : Option (List Char),
      (!charsStartWith (pathL ++ qpart qp) ['/', '/', '/'] &&
        charsStartWith (pathL ++ qpart qp) ['/', '/']) = false)
    (hcssH : ∀ qp : Option (List Char), ∀ pre post,
      splitCSS (pathL ++ qpart qp) = some (pre, post) → validSchemeChars pre = false) :
    parseURL (encodeURL
        { scheme := "", host := "", path := ⟨pathL⟩,
          rawQuery := ⟨encodeQueryChars ((parseQueryPairs qS).filter
            (fun p => !isTrackingParam p.1))⟩,
          fragment := "" })
      = { scheme := "", host := "", path := ⟨pathL⟩,
          rawQuery := ⟨encodeQueryChars ((parseQueryPairs qS).filter
            (fun p => !isTrackingParam p.1))⟩,
          fragment := "" } := by
  have hq2 := no_hash_encQ hqS
  rcases hqe : encodeQueryChars ((parseQueryPairs qS).filter
      (fun p => !isTrackingParam p.1)) with _ | ⟨qc, qr⟩
  · have henc : encodeURL
        { scheme := "", host := "", path := ⟨pathL⟩,
          rawQuery := ⟨([] : List Char)⟩, fragment := "" }
        = ⟨pathL ++ qpart none⟩ := by
      unfold encodeURL
      dsimp only [String.toList]
      rw [if_neg (show ¬(((⟨([] : List Char)⟩ : String) != "") = true) from by decide),
        if_neg (show ¬((("" : String) != "") = true) from by decide),
        if_neg (show ¬((("" : String) != "") = true) from by decide)]
      apply congrArg
      simp [qpart]
    rw [henc, parseURL_pathonly pathL none hpathq hpathh (fun q hq => nomatch hq)
      (hssH none) (hcssH none)]
    rfl
  · have hq3 : '#' ∉ qc :: qr := hqe ▸ hq2
    have henc : encodeURL
        { scheme := "", host := "", path := ⟨pathL⟩,
          rawQuery := ⟨qc :: qr⟩, fragment := "" }
        = ⟨pathL ++ qpart (some (qc :: qr))⟩ := by
      unfold encodeURL
      dsimp only [String.toList]
      rw [if_pos (strMk_cons_bne qc qr),
        if_neg (show ¬((("" : String) != "") = true) from by decide),
        if_neg (show ¬((("" : String) != "") = true) from by decide)]
      apply congrArg
      simp [qpart]
    rw [henc, parseURL_pathonly pathL (some (qc :: qr)) hpathq hpathh
      (fun q hq => by injection hq with hq; exact hq ▸ hq3)
      (hssH (some (qc :: qr))) (hcssH (some (qc :: qr)))]
    rfl

theorem contains2_false {c a b : Char} (h1 : c ≠ a) (h2 : c ≠ b) :
    ([a, b] : List Char).contains c = false :=
  contains_eq_false_of_not_mem (by simp [h1, h2])

theorem toLower_pres {d t : Char} (ht : t.toNat < 65) (hne : d ≠ t) :
    Char.toLower d ≠ t :=
  fun he => hne ((toLower_eq_low ht).mp he)

theorem lower_host_facts {hostA : List Char}
    (h : ∀ c ∈ hostA, (['/', '?'] : List Char).contains c = false ∧ c ≠ '#') :
    ∀ c ∈ List.map Char.toLower hostA,
      (['/', '?'] : List Char).contains c = false ∧ c ≠ '#' := by
  intro c hc
  obtain ⟨d, hd, hde⟩ := List.mem_map.mp hc
  obtain ⟨hd1, hd2⟩ := h d hd
  have hdslash : d ≠ '/' ∧ d ≠ '?' := by
    constructor <;> intro he <;> rw [he] at hd1 <;> exact absurd hd1 (by decide)
  subst hde
  exact ⟨contains2_false (toLower_pres (by decide) hdslash.1)
      (toLower_pres (by decide) hdslash.2),
    toLower_pres (by decide) hd2⟩

theorem authority_facts (rest : List Char) :
    (∀ c ∈ (takeUntilAny ['/', '?'] rest).1,
        (['/', '?'] : List Char).contains c = false ∧ c ∈ rest) ∧
    '?' ∉ (splitAtChar '?' (takeUntilAny ['/', '?'] rest).2).1 ∧
    (∀ c ∈ (splitAtChar '?' (takeUntilAny ['/', '?'] rest).2).1, c ∈ rest) ∧
    ((splitAtChar '?' (takeUntilAny ['/', '?'] rest).2).1 = [] ∨
      ∃ t, (splitAtChar '?' (takeUntilAny ['/', '?'] rest).2).1 = '/' :: t) ∧
    (∀ q, (splitAtChar '?' (takeUntilAny ['/', '?'] rest).2).2 = some q →
      ∀ c ∈ q, c ∈ rest) := by
  refine ⟨?_, splitAtChar_fst_not_target '?' _, ?_, ?_, ?_⟩
  · intro c hc
    exact ⟨takeUntilAny_fst_no_stop _ rest c hc, takeUntilAny_fst_subset _ rest c hc⟩
  · intro c hc
    exact takeUntilAny_snd_subset _ rest c (splitAtChar_fst_subset '?' _ c hc)
  · rcases takeUntilAny_snd_shape ['/', '?'] rest with h0 | ⟨c, t, hct, hcc⟩
    · rw [h0]
      exact Or.inl rfl
    · rcases (show c = '/' ∨ c = '?' from by simpa using hcc) with h | h
      · subst h
        rw [hct]
        exact Or.inr ⟨(splitAtChar '?' t).1, rfl⟩
      · subst h
        rw [hct]
        exact Or.inl rfl
  · intro q hq c hc
    exact takeUntilAny_snd_subset _ rest c (splitAtChar_snd_subset '?' _ q hq c hc)

theorem canonical_auth_case (s : String) (fp1 : List Char) (p : List Char × List Char)
    (fr : String) (hfp1 : '#' ∉ fp1) (hcs : splitCSS fp1 = some p)
    (hv : validSchemeChars p.1 = true)
    (hueq : parseURL s = parseAuthority ⟨p.1⟩ p.2 fr) :
    parseURL (CanonicalizeURL s) = canonicalRec s := by
  have hsub2 : ∀ c ∈ p.2, c ∈ fp1 := by
    intro c hc
    rw [splitCSS_sound (show splitCSS fp1 = some (p.1, p.2) from by rw [hcs])]
    exact List.mem_append.mpr (Or.inr (by simp [hc]))
  obtain ⟨hhostF, hpathq, hpathsub, hshape, hqsub⟩ := authority_facts p.2
  unfold CanonicalizeURL canonicalRec
  rw [hueq]
  dsimp only [parseAuthority, lowerStr, String.toList]
  refine canonical_output_auth p.1 _ _ _ hv ?_ hpathq ?_ hshape ?_
  · exact lower_host_facts (fun c hc =>
      ⟨(hhostF c hc).1, fun he => hfp1 (hsub2 '#' (by rw [← he]; exact (hhostF c hc).2))⟩)
  · exact fun hm => hfp1 (hsub2 '#' (hpathsub '#' hm))
  · rcases hqq : (splitAtChar '?' (takeUntilAny ['/', '?'] p.2).2).2 with _ | qv
    · simp
    · intro hm
      exact hfp1 (hsub2 '#' (hqsub qv hqq '#' hm))

theorem canonical_noscheme (s : String) (fp1 : List Char) (fr : String)
    (hfp1 : '#' ∉ fp1)
    (hueq : parseURL s = parseNoScheme fp1 fr)
    (horig : splitCSS fp1 = none ∨
      ∃ p₀ : List Char × List Char, splitCSS fp1 = some p₀ ∧ validSchemeChars p₀.1 = false) :
    parseURL (CanonicalizeURL s) = canonicalRec s := by
  by_cases hss : (!charsStartWith fp1 ['/', '/', '/'] &&
      charsStartWith fp1 ['/', '/']) = true
  · obtain ⟨hn3, h2⟩ := Bool.and_eq_true _ _ |>.mp hss
    have h3 : charsStartWith fp1 ['/', '/', '/'] = false := by
      rcases hb : charsStartWith fp1 ['/', '/', '/'] with _ | _
      · rfl
      · rw [hb] at hn3
        exact nomatch hn3
    have hd2 : fp1 = '/' :: '/' :: fp1.drop 2 := charsStartWith_two h2
    have hXshape : fp1.drop 2 = [] ∨ ∃ x X', fp1.drop 2 = x :: X' ∧ x ≠ '/' := by
      rcases hX : fp1.drop 2 with _ | ⟨x, X'⟩
      · exact Or.inl rfl
      · refine Or.inr ⟨x, X', rfl, ?_⟩
        intro he
        rw [hd2, hX, he, charsStartWith_slashes3] at h3
        exact nomatch h3
    have hsub2 : ∀ c ∈ fp1.drop 2, c ∈ fp1 := by
      intro c hc
      rw [hd2]
      exact List.mem_cons_of_mem _ (List.mem_cons_of_mem _ hc)
    have hnseq : parseURL s = parseAuthority "" (fp1.drop 2) fr := by
      rw [hueq]
      unfold parseNoScheme
      rw [if_pos hss]
    obtain ⟨hhostF, hpathq, hpathsub, hshape, hqsub⟩ := authority_facts (fp1.drop 2)
    unfold CanonicalizeURL canonicalRec
    rw [hnseq]
    dsimp only [parseAuthority, lowerStr, String.toList]
    rcases hh : (takeUntilAny ['/', '?'] (fp1.drop 2)).1 with _ | ⟨h0, hr0⟩
    · -- empty host: the `///`-exception forces an empty path here
      have hpath0 : (splitAtChar '?' (takeUntilAny ['/', '?'] (fp1.drop 2)).2).1 = [] := by
        rcases hXshape with hX0 | ⟨x, X', hXc, hxne⟩
        · rw [hX0]
          rfl
        · rw [hXc] at hh ⊢
          by_cases hstop : (['/', '?'] : List Char).contains x = true
          · have hx : x = '/' ∨ x = '?' := by simpa using hstop
            rcases hx with hx | hx
            · exact absurd hx hxne
            · subst hx
              rw [show takeUntilAny ['/', '?'] ('?' :: X') = ([], '?' :: X') from by
                unfold takeUntilAny; rw [if_pos (by decide)]]
              rfl
          · rw [Bool.not_eq_true] at hstop
            exfalso
            have htk : takeUntilAny ['/', '?'] (x :: X')
                = (x :: (takeUntilAny ['/', '?'] X').1, (takeUntilAny ['/', '?'] X').2) := by
              conv_lhs => rw [takeUntilAny]
              rw [if_neg (by rw [hstop]; exact fun hcon => nomatch hcon)]
            rw [htk] at hh
            simp at hh
      refine canonical_output_pathonly _ _ hpathq ?_ ?_ ?_ ?_
      · exact fun hm => hfp1 (hsub2 '#' (hpathsub '#' hm))
      · rcases hqq : (splitAtChar '?' (takeUntilAny ['/', '?'] (fp1.drop 2)).2).2 with _ | qv
        · simp
        · intro hm
          exact hfp1 (hsub2 '#' (hqsub qv hqq '#' hm))
      · intro qp
        rw [hpath0]
        rcases qp with _ | e
        · decide
        · show (!charsStartWith ([] ++ '?' :: e) ['/', '/', '/'] &&
            charsStartWith ([] ++ '?' :: e) ['/', '/']) = false
          simp [charsStartWith]
      · intro qp
        exact hcss_slashhead _ qp (Or.inl hpath0)
    · refine canonical_output_hostonly (Char.toLower h0) (List.map Char.toLower hr0) _ _
        ?_ hpathq ?_ hshape ?_
      · have hfacts : ∀ c ∈ h0 :: hr0,
            (['/', '?'] : List Char).contains c = false ∧ c ≠ '#' := by
          intro c hc
          have hc' : c ∈ (takeUntilAny ['/', '?'] (fp1.drop 2)).1 := by
            rw [hh]
            exact hc
          exact ⟨(hhostF c hc').1,
            fun he => hfp1 (hsub2 '#' (by rw [← he]; exact (hhostF c hc').2))⟩
        exact lower_host_facts hfacts
      · exact fun hm => hfp1 (hsub2 '#' (hpathsub '#' hm))
      · rcases hqq : (splitAtChar '?' (takeUntilAny ['/', '?'] (fp1.drop 2)).2).2 with _ | qv
        · simp
        · intro hm
          exact hfp1 (hsub2 '#' (hqsub qv hqq '#' hm))
  · rw [Bool.not_eq_true] at hss
    have hnseq : parseURL s
        = { scheme := "", host := "", path := ⟨(splitAtChar '?' fp1).1⟩,
            rawQuery := qstr (splitAtChar '?' fp1).2, fragment := fr } := by
      rw [hueq]
      unfold parseNoScheme
      rw [if_neg (by rw [hss]; exact fun hcon => nomatch hcon)]
      dsimp only
      rcases hqq : (splitAtChar '?' fp1).2 with _ | qv
      · rfl
      · rfl
    have hpathq : '?' ∉ (splitAtChar '?' fp1).1 := splitAtChar_fst_not_target '?' fp1
    have hpathsub : ∀ c ∈ (splitAtChar '?' fp1).1, c ∈ fp1 := splitAtChar_fst_subset '?' fp1
    have hre : ∃ tail, fp1 = (splitAtChar '?' fp1).1 ++ tail ∧
        (tail = [] ∨ ∃ e, tail = '?' :: e) := by
      rcases hqq : (splitAtChar '?' fp1).2 with _ | qv
      · obtain ⟨h1, -⟩ := splitAtChar_eq_none (show splitAtChar '?' fp1
            = ((splitAtChar '?' fp1).1, none) from by rw [← hqq])
        exact ⟨[], by rw [List.append_nil]; exact h1, Or.inl rfl⟩
      · obtain ⟨h1, -⟩ := splitAtChar_eq_some (show splitAtChar '?' fp1
            = ((splitAtChar '?' fp1).1, some qv) from by rw [← hqq])
        exact ⟨'?' :: qv, h1, Or.inr ⟨qv, rfl⟩⟩
    obtain ⟨tail, hre, htail⟩ := hre
    unfold CanonicalizeURL canonicalRec
    rw [hnseq]
    dsimp only [lowerStr, String.toList]
    refine canonical_output_pathonly _ _ hpathq ?_ ?_ ?_ ?_
    · exact fun hm => hfp1 (hpathsub '#' hm)
    · rcases hqq : (splitAtChar '?' fp1).2 with _ | qv
      · simp [qstr]
      · intro hm
        exact hfp1 (splitAtChar_snd_subset '?' fp1 qv hqq '#' hm)
    · intro qp
      exact hns_case3 _ qp hre htail hss
    · intro qp
      exact hcss_case3 _ qp hre horig

theorem parseURL_canonical (s : String) :
    parseURL (CanonicalizeURL s) = canonicalRec s := by
  rcases hfp : splitAtChar '#' s.toList with ⟨fp1, fpo⟩
  have hfp1 : '#' ∉ fp1 := by
    have h := splitAtChar_fst_not_target '#' s.toList
    rw [hfp] at h
    exact h
  rcases hcs : splitCSS fp1 with _ | p
  · have hueq : ∃ fr, parseURL s = parseNoScheme fp1 fr := by
      refine ⟨qstr fpo, ?_⟩
      unfold parseURL
      rw [hfp]
      dsimp only
      rw [hcs]
      rcases fpo with _ | f <;> rfl
    obtain ⟨fr, hueq⟩ := hueq
    exact canonical_noscheme s fp1 fr hfp1 hueq (Or.inl hcs)
  · by_cases hv : validSchemeChars p.1 = true
    · have hueq : ∃ fr, parseURL s = parseAuthority ⟨p.1⟩ p.2 fr := by
        refine ⟨qstr fpo, ?_⟩
        unfold parseURL
        rw [hfp]
        dsimp only
        rw [hcs]
        dsimp only
        rw [if_pos hv]
        rcases fpo with _ | f <;> rfl
      obtain ⟨fr, hueq⟩ := hueq
      exact canonical_auth_case s fp1 p fr hfp1 hcs hv hueq
    · have hueq : ∃ fr, parseURL s = parseNoScheme fp1 fr := by
        refine ⟨qstr fpo, ?_⟩
        unfold parseURL
        rw [hfp]
        dsimp only
        rw [hcs]
        dsimp only
        rw [if_neg hv]
        rcases fpo with _ | f <;> rfl
      obtain ⟨fr, hueq⟩ := hueq
      rw [Bool.not_eq_true] at hv
      exact canonical_noscheme s fp1 fr hfp1 hueq (Or.inr ⟨p, hcs, hv⟩)

theorem canonicalRec_stable (s : String) :
    canonicalRec (CanonicalizeURL s) = canonicalRec s := by
  have hrt := parseURL_canonical s
  show { scheme := (parseURL (CanonicalizeURL s)).scheme,
         host := lowerStr (parseURL (CanonicalizeURL s)).host,
         path := (parseURL (CanonicalizeURL s)).path,
         rawQuery := (⟨encodeQueryChars ((parseQueryPairs
             (parseURL (CanonicalizeURL s)).rawQuery).filter
           (fun p => !isTrackingParam p.1))⟩ : String),
         fragment := "" } = canonicalRec s
  rw [hrt]
  show { scheme := (parseURL s).scheme,
         host := lowerStr (lowerStr (parseURL s).host),
         path := (parseURL s).path,
         rawQuery := (⟨encodeQueryChars ((parseQueryPairs
             (⟨encodeQueryChars ((parseQueryPairs (parseURL s).rawQuery).filter
               (fun p => !isTrackingParam p.1))⟩ : String)).filter
           (fun p => !isTrackingParam p.1))⟩ : String),
         fragment := "" } = canonicalRec s
  rw [lowerStr_lowerStr, requery_stable]
  rfl

/-- C9: URL canonicalization is idempotent — for every input string,
    canonicalizing twice yields the same string as canonicalizing once — and
    the canonical result, as re-parsed, has a lowercase-fixed host, an empty
    fragment, and no query parameters whose name starts with `utm_` or
    exactly matches fbclid, gclid, mc_cid, mc_eid, mkt_tok, ref, session or
    s_cid. -/
theorem urlCanonicalizationIdempotentAndClean (s : String) :
    CanonicalizeURL (CanonicalizeURL s) = CanonicalizeURL s ∧
    lowerStr (parseURL (CanonicalizeURL s)).host = (parseURL (CanonicalizeURL s)).host ∧
    (parseURL (CanonicalizeURL s)).fragment = "" ∧
    ((parseQueryPairs (parseURL (CanonicalizeURL s)).rawQuery).all
      (fun p => !isTrackingParam p.1)) = true := by
  have hrt := parseURL_canonical s
  refine ⟨?_, ?_, ?_, ?_⟩
  · show encodeURL (canonicalRec (CanonicalizeURL s)) = CanonicalizeURL s
    rw [canonicalRec_stable s]
    rfl
  · rw [hrt]
    show lowerStr (lowerStr (parseURL s).host) = lowerStr (parseURL s).host
    exact lowerStr_lowerStr _
  · rw [hrt]
    rfl
  · rw [hrt]
    show ((parseQueryPairs (⟨joinPairsChars (sortByKey
        ((parseQueryPairs (parseURL s).rawQuery).filter
          (fun p => !isTrackingParam p.1)))⟩ : String)).all
      (fun p => !isTrackingParam p.1)) = true
    rw [parse_join _ (sortedQueryPairs_wf (parseURL s).rawQuery)]
    apply List.all_eq_true.mpr
    intro p hp
    have hmem : p ∈ (parseQueryPairs (parseURL s).rawQuery).filter
        (fun r => !isTrackingParam r.1) :=
      (List.Perm.mem_iff (sortByKey_perm _)).mp hp
    have hval := List.of_mem_filter hmem
    exact hval

end GrantFinder
